import Mathlib

set_option maxRecDepth 8192

/-!
Verification of the node-replicated-kernel core subsystems against their
natural-language specification. The Rust sources are shallowly embedded:
machine integers become `Nat` (with explicit `% 2^64` where u64 wrap-around
matters), fallible paths become `Option`/`Except` (`none` models a failed
`assert!`/`expect`, i.e. a kernel panic), and the effects of stateful code
are made explicit as state passing or event traces.
-/

namespace Nrk

/-- `BASE_PAGE_SIZE` from the x86_64 memory constants (4 KiB). -/
def BASE_PAGE_SIZE : Nat := 4096

/-- `LARGE_PAGE_SIZE` from the x86_64 memory constants (2 MiB). -/
def LARGE_PAGE_SIZE : Nat := 2097152

/-- `KERNEL_BASE = 0xffff_8800_0000_0000`: the lowest kernel virtual address. -/
def KERNEL_BASE : Nat := 0xffff880000000000

/-- Size of the u64 value space; u64 arithmetic wraps modulo this. -/
def U64 : Nat := 2 ^ 64

/-- An owned contiguous physical region `{base, size, affinity}`
(struct `Frame` in `memory/mod.rs`, fields as used throughout `src/`).
Physical addresses are embedded as `Nat`. -/
structure Frame where
  base : Nat
  size : Nat
  affinity : Nat
  deriving Repr, DecidableEq

namespace Tlb

/-- A `Shootdown` record from `arch/x86_64/tlb.rs`: a virtual-address range
`[start, stop)` plus the shared `ack` flag. The `Arc` identity of the record
is embedded as an explicit `id`, so that the same record can be referenced
from a work queue and from the initiator's pending list. -/
structure ShootdownRec where
  id : Nat
  start : Nat
  stop : Nat
  ack : Bool
  deriving Repr, DecidableEq

/-- `WorkItem` from `arch/x86_64/tlb.rs`: either a TLB shootdown request or an
advance-replica request carrying a log id. -/
inductive WorkItem where
  | shootdown (s : ShootdownRec)
  | advanceReplica (logId : Nat)
  deriving Repr, DecidableEq

/-- Observable effects of the TLB receiver paths, as an event trace:
setting the `ack` flag of a shootdown record, flushing one page,
flushing the whole TLB, and synchronizing a replica log. -/
inductive Event where
  | ackSet (id : Nat)
  | flushPage (va : Nat)
  | flushAll
  | syncLog (logId : Nat)
  | syncNr
  deriving Repr, DecidableEq

/-- Whether an event is a TLB flush (of a page or of the whole TLB). -/
def Event.isFlush : Event → Bool
  | Event.flushPage _ => true
  | Event.flushAll => true
  | _ => false

/-- The pages stepped over by `self.vregion.clone().step_by(BASE_PAGE_SIZE)`:
`start, start + 4096, ...` strictly below `stop`. -/
def rangePages (start stop : Nat) : List Nat :=
  (List.range ((stop - start + (BASE_PAGE_SIZE - 1)) / BASE_PAGE_SIZE)).map
    (fun k => start + BASE_PAGE_SIZE * k)

/-- `Shootdown::process` from `arch/x86_64/tlb.rs`: acknowledge first, then
flush the whole TLB if the range covers more than 20 pages, otherwise flush
each page of the range. The returned trace lists the effects in program
order; the returned record has `ack` set. -/
def Shootdown.process (s : ShootdownRec) : ShootdownRec × List Event :=
  ({ s with ack := true },
    Event.ackSet s.id ::
      (if (rangePages s.start s.stop).length > 20 then [Event.flushAll]
       else (rangePages s.start s.stop).map Event.flushPage))

/-- `advance_log` from `arch/x86_64/tlb.rs`: if `log_id ≠ 1` first synchronize
log 1, then synchronize `log_id`. `sync` is the `MlnrKernelNode::synchronize_log`
oracle (`false` = the call returned an error, on which the code hits
`unreachable!`, modelled as `none`). Returns the trace of synchronize calls
in program order. -/
def advance_log (sync : Nat → Bool) (logId : Nat) : Option (List Event) :=
  if logId ≠ 1 then
    if sync 1 then
      if sync logId then some [Event.syncLog 1, Event.syncLog logId] else none
    else none
  else
    if sync logId then some [Event.syncLog logId] else none

/-- Capacity of each per-core IPI work queue (`ArrayQueue::new(4)`). -/
def QUEUE_CAP : Nat := 4

/-- `enqueue` from `arch/x86_64/tlb.rs`: push at the tail of the bounded
queue; the code `assert!`s the push succeeded, so a full queue is a panic
(`none`). The queue front is the list head. -/
def enqueue (q : List WorkItem) (w : WorkItem) : Option (List WorkItem) :=
  if q.length < QUEUE_CAP then some (q ++ [w]) else none

/-- `dequeue` from `arch/x86_64/tlb.rs`: pop the front work item; a
`Shootdown` is processed (ack, then flush), an `AdvanceReplica` advances the
log, an empty queue is a no-op. Returns the remaining queue, the processed
shootdown record (if any), and the event trace; `none` is a panic inside
`advance_log`. -/
def dequeue (sync : Nat → Bool) (q : List WorkItem) :
    Option (List WorkItem × Option ShootdownRec × List Event) :=
  match q with
  | [] => some ([], none, [])
  | WorkItem.shootdown s :: rest =>
      let (s1, tr) := Shootdown.process s
      some (rest, some s1, tr)
  | WorkItem.advanceReplica logId :: rest =>
      match advance_log sync logId with
      | some tr => some (rest, none, tr)
      | none => none

/-- `eager_advance_mlnr_replica` from `arch/x86_64/tlb.rs`: pop the local
queue; a `Shootdown` item is pushed back untouched, an `AdvanceReplica` item
advances its log, and on an empty queue the local NR replica and the local
Mlnr replica (log `kcbLogId`) are synchronized. Returns the new queue and
the event trace; `none` is a panic (full queue on re-enqueue or a failed
synchronize). -/
def eager_advance_mlnr_replica (sync : Nat → Bool) (kcbLogId : Nat)
    (q : List WorkItem) : Option (List WorkItem × List Event) :=
  match q with
  | WorkItem.shootdown s :: rest =>
      match enqueue rest (WorkItem.shootdown s) with
      | some q1 => some (q1, [])
      | none => none
  | WorkItem.advanceReplica logId :: rest =>
      match advance_log sync logId with
      | some tr => some (rest, tr)
      | none => none
  | [] =>
      match advance_log sync kcbLogId with
      | some tr => some ([], Event.syncNr :: tr)
      | none => none

/-- The peer set of a shootdown: `shootdown` in `arch/x86_64/tlb.rs` walks
`handle.core_map.into_iter().enumerate()` and targets every gtid that is set
in the bit-map and differs from the initiator's own gtid. -/
def peersOf (coreMap : List Bool) (my : Nat) : List Nat :=
  (List.range coreMap.length).filter (fun g => coreMap.getD g false && g != my)

/-- State of the shootdown wait protocol: the `ack` flag of the `Shootdown`
record enqueued for each peer gtid, and the initiator's `shootdowns` vector
of still-pending records (identified by peer gtid, one record per peer). -/
structure ProtoState where
  acked : Nat → Bool
  pending : List Nat

/-- The initiator's state right after the enqueue/IPI phase of `shootdown`:
one un-acknowledged `Shootdown` record per peer, all of them pending. -/
def initProto (coreMap : List Bool) (my : Nat) : ProtoState :=
  ⟨fun _ => false, peersOf coreMap my⟩

/-- One step of the shootdown protocol: either some receiver processes its
`Shootdown` work item (its first effect is `ack := true`, cf.
`Shootdown::process`), or the initiator runs one iteration of its wait loop
`shootdowns.drain_filter(|s| s.is_acknowledged())`. -/
inductive ProtoStep : ProtoState → ProtoState → Prop
  | recv (s : ProtoState) (g : Nat) :
      ProtoStep s ⟨Function.update s.acked g true, s.pending⟩
  | drain (s : ProtoState) :
      ProtoStep s ⟨s.acked, s.pending.filter (fun g => !s.acked g)⟩

/-- Reachability in the shootdown protocol. -/
def ProtoReach : ProtoState → ProtoState → Prop :=
  Relation.ReflTransGen ProtoStep

/-- Invariant of the wait loop: a peer whose record is no longer pending has
been acknowledged (acks are sticky: no step resets a flag). -/
theorem protoInvariant (coreMap : List Bool) (my : Nat) (s : ProtoState)
    (h : ProtoReach (initProto coreMap my) s) :
    ∀ g ∈ peersOf coreMap my, s.acked g = true ∨ g ∈ s.pending := by
  induction h with
  | refl => intro g hg; exact Or.inr hg
  | tail hab hstep ih =>
    rename_i b c
    intro g hg
    cases hstep with
    | recv g0 =>
      rcases ih g hg with hA | hP
      · left
        by_cases hgg : g = g0
        · subst hgg; simp [Function.update]
        · simpa [Function.update, hgg] using hA
      · by_cases hgg : g = g0
        · subst hgg; left; simp [Function.update]
        · right; exact hP
    | drain =>
      rcases ih g hg with hA | hP
      · exact Or.inl hA
      · by_cases hAg : b.acked g = true
        · exact Or.inl hAg
        · right
          simp only [List.mem_filter]
          exact ⟨hP, by simp [Bool.not_eq_true] at hAg ⊢; exact hAg⟩

end Tlb

/-- C2: once the initiator's wait loop of `shootdown` has drained its pending
list to empty (the condition under which `shootdown` returns), every
`Shootdown` record it enqueued for a peer gtid of the target set has its
`ack` flag set; moreover a receiver processing a `Shootdown` work item emits
the `ack := true` effect strictly before any TLB-flush effect. -/
theorem shootdown_returns_only_after_all_acks (coreMap : List Bool) (my : Nat)
    (s : Tlb.ProtoState) (hreach : Tlb.ProtoReach (Tlb.initProto coreMap my) s)
    (hdone : s.pending = []) :
    (∀ g ∈ Tlb.peersOf coreMap my, s.acked g = true) ∧
    (∀ sd : Tlb.ShootdownRec, ∀ j e, (Tlb.Shootdown.process sd).2.get? j = some e →
      e.isFlush = true →
      ∃ k, k < j ∧ (Tlb.Shootdown.process sd).2.get? k = some (Tlb.Event.ackSet sd.id)) := by
  constructor
  · intro g hg
    rcases Tlb.protoInvariant coreMap my s hreach g hg with h | h
    · exact h
    · rw [hdone] at h; cases h
  · intro sd j e hj hf
    cases j with
    | zero =>
      have he : e = Tlb.Event.ackSet sd.id := by
        have : some e = some (Tlb.Event.ackSet sd.id) := by
          simpa [Tlb.Shootdown.process] using hj.symm
        exact (Option.some.inj this)
      rw [he] at hf
      simp [Tlb.Event.isFlush] at hf
    | succ n =>
      exact ⟨0, Nat.succ_pos n, rfl⟩

/-- Witness for C2: a two-peer run (receiver 1 acks, initiator drains) ends
with an empty pending list and the peer's `ack` flag set. -/
theorem shootdown_returns_only_after_all_acks_witness :
    (Tlb.ProtoState.mk
        (Function.update (Tlb.initProto [true, true, false] 0).acked 1 true)
        (((Tlb.ProtoState.mk
            (Function.update (Tlb.initProto [true, true, false] 0).acked 1 true)
            (Tlb.initProto [true, true, false] 0).pending).pending).filter
          (fun g => !(Tlb.ProtoState.mk
            (Function.update (Tlb.initProto [true, true, false] 0).acked 1 true)
            (Tlb.initProto [true, true, false] 0).pending).acked g))).acked 1 = true := by
  apply (shootdown_returns_only_after_all_acks [true, true, false] 0 _ ?_ ?_).1 1 (by decide)
  · exact Relation.ReflTransGen.tail
      (Relation.ReflTransGen.tail Relation.ReflTransGen.refl
        (Tlb.ProtoStep.recv (Tlb.initProto [true, true, false] 0) 1))
      (Tlb.ProtoStep.drain _)
  · simp only [Tlb.initProto, Tlb.peersOf]
    decide

/-- C3: an `AdvanceReplica(log_id)` work item handled by the receiver
(`dequeue`) synchronizes log 1 strictly before log `log_id` when
`log_id ≠ 1`, and synchronizes only log 1 when `log_id = 1`. -/
theorem advance_replica_syncs_metadata_log_first (sync : Nat → Bool)
    (rest : List Tlb.WorkItem) (logId : Nat)
    (h1 : sync 1 = true) (hl : sync logId = true) :
    (logId ≠ 1 → Tlb.dequeue sync (Tlb.WorkItem.advanceReplica logId :: rest) =
        some (rest, none, [Tlb.Event.syncLog 1, Tlb.Event.syncLog logId])) ∧
    (logId = 1 → Tlb.dequeue sync (Tlb.WorkItem.advanceReplica logId :: rest) =
        some (rest, none, [Tlb.Event.syncLog 1])) := by
  constructor
  · intro hne
    simp [Tlb.dequeue, Tlb.advance_log, hne, h1, hl]
  · intro he
    subst he
    simp [Tlb.dequeue, Tlb.advance_log, h1]

/-- Witness for C3: `AdvanceReplica(2)` makes the receiver synchronize log 1
and then log 2. -/
theorem advance_replica_syncs_metadata_log_first_witness :
    Tlb.dequeue (fun _ => true) [Tlb.WorkItem.advanceReplica 2] =
      some ([], none, [Tlb.Event.syncLog 1, Tlb.Event.syncLog 2]) :=
  (advance_replica_syncs_metadata_log_first (fun _ => true) [] 2 rfl rfl).1
    (by decide)

/-- C10: `eager_advance_mlnr_replica` never processes a `Shootdown`: a popped
`Shootdown` item is pushed back unchanged (its `ack` flag still false) with
no TLB flush and no log synchronization; a popped `AdvanceReplica` item is
applied through `advance_log`, whose trace contains no flush; and on an
empty queue the local NR replica and the local Mlnr log are synchronized. -/
theorem eager_advance_requeues_shootdowns (sync : Nat → Bool) (kcbLogId : Nat)
    (sd : Tlb.ShootdownRec) (rest : List Tlb.WorkItem)
    (hroom : rest.length < Tlb.QUEUE_CAP) (hack : sd.ack = false)
    (h1 : sync 1 = true) (hk : sync kcbLogId = true) :
    (Tlb.eager_advance_mlnr_replica sync kcbLogId
        (Tlb.WorkItem.shootdown sd :: rest) =
      some (rest ++ [Tlb.WorkItem.shootdown sd], []) ∧ sd.ack = false) ∧
    (∀ logId, sync logId = true →
      ∃ tr, Tlb.advance_log sync logId = some tr ∧
        Tlb.eager_advance_mlnr_replica sync kcbLogId
            (Tlb.WorkItem.advanceReplica logId :: rest) = some (rest, tr) ∧
        ∀ e ∈ tr, e.isFlush = false) ∧
    (∃ tr, Tlb.advance_log sync kcbLogId = some tr ∧
      Tlb.eager_advance_mlnr_replica sync kcbLogId [] =
        some ([], Tlb.Event.syncNr :: tr)) := by
  refine ⟨⟨?_, hack⟩, ?_, ?_⟩
  · simp [Tlb.eager_advance_mlnr_replica, Tlb.enqueue, hroom]
  · intro logId hlog
    by_cases hne : logId = 1
    · subst hne
      refine ⟨[Tlb.Event.syncLog 1], ?_, ?_, ?_⟩
      · simp [Tlb.advance_log, h1]
      · simp [Tlb.eager_advance_mlnr_replica, Tlb.advance_log, h1]
      · intro e he
        simp at he
        rw [he]
        rfl
    · refine ⟨[Tlb.Event.syncLog 1, Tlb.Event.syncLog logId], ?_, ?_, ?_⟩
      · simp [Tlb.advance_log, hne, h1, hlog]
      · simp [Tlb.eager_advance_mlnr_replica, Tlb.advance_log, hne, h1, hlog]
      · intro e he
        simp at he
        rcases he with he | he <;> (rw [he]; rfl)
  · by_cases hne : kcbLogId = 1
    · subst hne
      refine ⟨[Tlb.Event.syncLog 1], by simp [Tlb.advance_log, h1], ?_⟩
      simp [Tlb.eager_advance_mlnr_replica, Tlb.advance_log, h1]
    · refine ⟨[Tlb.Event.syncLog 1, Tlb.Event.syncLog kcbLogId],
        by simp [Tlb.advance_log, hne, h1, hk], ?_⟩
      simp [Tlb.eager_advance_mlnr_replica, Tlb.advance_log, hne, h1, hk]

/-- Witness for C10: on a queue holding one un-acknowledged shootdown, the
item is re-enqueued unchanged and nothing is flushed or synchronized. -/
theorem eager_advance_requeues_shootdowns_witness :
    Tlb.eager_advance_mlnr_replica (fun _ => true) 2
        [Tlb.WorkItem.shootdown (Tlb.ShootdownRec.mk 7 0 4096 false)] =
      some ([Tlb.WorkItem.shootdown (Tlb.ShootdownRec.mk 7 0 4096 false)], []) :=
  ((eager_advance_requeues_shootdowns (fun _ => true) 2
    (Tlb.ShootdownRec.mk 7 0 4096 false) [] (by decide) rfl rfl rfl).1).1

namespace Mem

/-- `AllocationError` from `memory/mod.rs`, the variants used by the
allocator paths under `src/`. -/
inductive AllocationError where
  | CacheExhausted
  | CacheFull
  | InvalidLayout
  deriving Repr, DecidableEq

/-- Capacity of `TCacheSp::base_page_addresses` (`ArrayVec<[PAddr; 2048]>`). -/
def BASE_CAP : Nat := 2048

/-- Capacity of `TCacheSp::large_page_addresses` (`ArrayVec<[PAddr; 12]>`). -/
def LARGE_CAP : Nat := 12

/-- `TCacheSp` from `memory/tcache_sp.rs`: a NUMA node id plus two bounded
stacks of cached page addresses (stack top = list end, like `ArrayVec`). -/
structure TCacheSp where
  node : Nat
  base_page_addresses : List Nat
  large_page_addresses : List Nat
  deriving Repr, DecidableEq

/-- `TCacheSp::release_base_page`: three `assert_eq!`s (size is one base
page, base is base-page aligned, affinity matches the cache's node), then a
bounded push. `none` models a failed assertion (panic); `CacheFull` a full
stack. -/
def release_base_page (t : TCacheSp) (f : Frame) :
    Option (Except AllocationError TCacheSp) :=
  if f.size = BASE_PAGE_SIZE ∧ f.base % BASE_PAGE_SIZE = 0 ∧ f.affinity = t.node then
    if t.base_page_addresses.length < BASE_CAP then
      some (Except.ok
        { t with base_page_addresses := t.base_page_addresses ++ [f.base] })
    else some (Except.error AllocationError.CacheFull)
  else none

/-- `TCacheSp::release_large_page`: the same checks at large-page
granularity. -/
def release_large_page (t : TCacheSp) (f : Frame) :
    Option (Except AllocationError TCacheSp) :=
  if f.size = LARGE_PAGE_SIZE ∧ f.base % LARGE_PAGE_SIZE = 0 ∧ f.affinity = t.node then
    if t.large_page_addresses.length < LARGE_CAP then
      some (Except.ok
        { t with large_page_addresses := t.large_page_addresses ++ [f.base] })
    else some (Except.error AllocationError.CacheFull)
  else none

end Mem

namespace Fs

/-- `FileSystemError` from `fs/mod.rs`. -/
inductive FileSystemError where
  | InvalidFileDescriptor
  | InvalidFile
  | InvalidFlags
  | InvalidOffset
  | PermissionError
  | AlreadyPresent
  | DirectoryError
  | OpenFileLimit
  | OutOfMemory
  deriving Repr, DecidableEq

/-- An `Arc<Mnode>` value of `MemFS::files`: the mnode number together with
the number of strong references held outside the map (clones handed out by
`MemFS::lookup`). After the entry has been removed from the map and is held
alone, `Arc::strong_count` of it is `1 + extraRefs`. -/
structure ArcMnode where
  mnode : Nat
  extraRefs : Nat
  deriving Repr, DecidableEq

/-- `MemFS` from `fs/mod.rs`, restricted to the two maps `delete` touches:
`files : HashMap<String, Arc<Mnode>>` and the domain of
`mnodes : HashMap<Mnode, MemNode>`. Hash maps are embedded as functions
(path names are an opaque decidable type). -/
structure MemFS (Path : Type) where
  files : Path → Option ArcMnode
  mnodes : Nat → Bool

/-- `MemFS::delete` from `fs/mod.rs`: remove the path from `files`; if
absent fail with `InvalidFile`; if the removed `Arc` has strong count 1,
also remove the mnode and return `Ok(true)`; otherwise re-insert the same
`Arc` under the same path and fail with `PermissionError`. -/
def delete {Path : Type} [DecidableEq Path] (fs : MemFS Path) (path : Path) :
    Except FileSystemError Bool × MemFS Path :=
  match fs.files path with
  | none => (Except.error FileSystemError.InvalidFile, fs)
  | some arc =>
      if 1 + arc.extraRefs = 1 then
        (Except.ok true,
          { files := Function.update fs.files path none,
            mnodes := Function.update fs.mnodes arc.mnode false })
      else
        (Except.error FileSystemError.PermissionError,
          { files := Function.update (Function.update fs.files path none) path
              (some arc),
            mnodes := fs.mnodes })

end Fs

namespace Buddy

open Mem

/-- `free_lists.len()`: 27 order classes. -/
def FREE_LISTS_LEN : Nat := 27

/-- Doubling loop behind `nextPowerOfTwo` (structural via fuel, so that the
kernel can evaluate it): starting from the power `p`, double until `n ≤ p`. -/
def npotGo : Nat → Nat → Nat → Nat
  | 0, _, p => p
  | fuel + 1, n, p => if n ≤ p then p else npotGo fuel n (2 * p)

/-- Rust `usize::next_power_of_two`: the least power of two `≥ n` (1 for 0). -/
def nextPowerOfTwo (n : Nat) : Nat := npotGo n n 1

/-- Halving loop behind `log2` (structural via fuel). -/
def log2Go : Nat → Nat → Nat
  | 0, _ => 0
  | fuel + 1, n => if n < 2 then 0 else log2Go fuel (n / 2) + 1

/-- Rust `usize::log2`: the floor of the base-2 logarithm. -/
def log2 (n : Nat) : Nat := log2Go n n

/-- The fuelled doubling loop agrees with `2 ^ Nat.clog 2`. -/
theorem npotGo_eq (n : Nat) : ∀ fuel j, n ≤ 2 ^ (j + fuel) →
    npotGo fuel n (2 ^ j) = 2 ^ max j (Nat.clog 2 n) := by
  intro fuel
  induction fuel with
  | zero =>
    intro j hj
    have hle : Nat.clog 2 n ≤ j :=
      (Nat.le_pow_iff_clog_le (by norm_num)).1 (by simpa using hj)
    simp [npotGo, max_eq_left hle]
  | succ fuel ih =>
    intro j hj
    unfold npotGo
    by_cases hnp : n ≤ 2 ^ j
    · have hle : Nat.clog 2 n ≤ j := (Nat.le_pow_iff_clog_le (by norm_num)).1 hnp
      simp [hnp, max_eq_left hle]
    · have hlt : j < Nat.clog 2 n := by
        rw [← Nat.pow_lt_iff_lt_clog (by norm_num)]
        omega
      have h2j : 2 * 2 ^ j = 2 ^ (j + 1) := by ring
      rw [if_neg hnp, h2j, ih (j + 1) (by simpa [Nat.add_assoc, Nat.add_comm,
        Nat.add_left_comm] using hj)]
      have h1 : max (j + 1) (Nat.clog 2 n) = Nat.clog 2 n := max_eq_right (by omega)
      have h2 : max j (Nat.clog 2 n) = Nat.clog 2 n := max_eq_right (by omega)
      rw [h1, h2]

/-- `nextPowerOfTwo` agrees with `2 ^ Nat.clog 2`. -/
theorem nextPowerOfTwo_eq (n : Nat) : nextPowerOfTwo n = 2 ^ Nat.clog 2 n := by
  have h := npotGo_eq n n 0 (by simpa using Nat.le_of_lt (Nat.lt_two_pow n))
  simpa [nextPowerOfTwo] using h

/-- The fuelled halving loop agrees with `Nat.log 2` when given enough fuel. -/
theorem log2Go_eq : ∀ fuel n, n ≤ fuel → log2Go fuel n = Nat.log 2 n := by
  intro fuel
  induction fuel with
  | zero =>
    intro n hn
    interval_cases n
    simp [log2Go]
  | succ fuel ih =>
    intro n hn
    unfold log2Go
    by_cases hsm : n < 2
    · rw [if_pos hsm]
      exact (Nat.log_eq_zero_iff.2 (Or.inl hsm)).symm
    · rw [if_neg hsm]
      have hdiv : n / 2 ≤ fuel := by omega
      rw [ih (n / 2) hdiv, Nat.log_div_base]
      have hpos : 0 < Nat.log 2 n := Nat.log_pos (by norm_num) (by omega)
      omega

/-- `log2` agrees with `Nat.log 2`. -/
theorem log2_eq (n : Nat) : log2 n = Nat.log 2 n := log2Go_eq n n le_rfl

/-- `log2` of a power of two. -/
theorem log2_two_pow (e : Nat) : log2 (2 ^ e) = e := by
  rw [log2_eq, Nat.log_pow (by norm_num)]

/-- `nextPowerOfTwo` of a power of two. -/
theorem nextPowerOfTwo_two_pow (e : Nat) : nextPowerOfTwo (2 ^ e) = 2 ^ e := by
  rw [nextPowerOfTwo_eq, Nat.clog_pow 2 _ (by norm_num)]

/-- `BuddyFrameAllocator` from `memory/buddy.rs`. The singly linked
`FreeBlock` lists threaded through free memory are embedded as one
`List Nat` of block addresses per order (the array of 27 heads becomes a
function from order to list; orders outside `[0, 27)` are only ever empty).
`kernel_vaddr_to_paddr` and `Frame::kernel_vaddr` form a fixed additive
bijection between the kernel window and physical memory and are embedded as
the identity, so block addresses coincide with frame base addresses. -/
structure BuddyFrameAllocator where
  region : Frame
  allocated_bytes : Nat
  internal_fragmentation : Nat
  free_lists : Nat → List Nat
  min_heap_align : Nat
  min_block_size : Nat
  min_block_size_log2 : Nat

/-- `BuddyFrameAllocator::new`. -/
def new : BuddyFrameAllocator :=
  { region := ⟨0, 0, 0⟩
    allocated_bytes := 0
    internal_fragmentation := 0
    free_lists := fun _ => []
    min_heap_align := BASE_PAGE_SIZE
    min_block_size := BASE_PAGE_SIZE
    min_block_size_log2 := 12 }

/-- `BuddyFrameAllocator::allocation_size`: reject alignments beyond the
heap alignment, take `max(size, align)`, clamp below by `min_block_size`,
round up to a power of two, and reject blocks larger than the region. -/
def allocation_size (a : BuddyFrameAllocator) (size align : Nat) : Option Nat :=
  if align > a.min_heap_align then none
  else if nextPowerOfTwo (max (max size align) a.min_block_size) ≤ a.region.size
    then some (nextPowerOfTwo (max (max size align) a.min_block_size))
    else none

/-- `BuddyFrameAllocator::layout_to_order`: `log2` of the allocation size
minus `min_block_size_log2`. -/
def layout_to_order (a : BuddyFrameAllocator) (size align : Nat) : Option Nat :=
  (allocation_size a size align).map (fun s => log2 s - a.min_block_size_log2)

/-- `BuddyFrameAllocator::order_to_size`: `1 << (min_block_size_log2 + order)`. -/
def order_to_size (a : BuddyFrameAllocator) (order : Nat) : Nat :=
  2 ^ (a.min_block_size_log2 + order)

/-- `BuddyFrameAllocator::free_list_insert`: push a block on the front of
the free list of its order. -/
def free_list_insert (fl : Nat → List Nat) (order : Nat) (block : Nat) :
    Nat → List Nat :=
  Function.update fl order (block :: fl order)

/-- `BuddyFrameAllocator::free_list_pop`: take the first block off the free
list of the given order. -/
def free_list_pop (fl : Nat → List Nat) (order : Nat) :
    Option (Nat × (Nat → List Nat)) :=
  match fl order with
  | [] => none
  | b :: rest => some (b, Function.update fl order rest)

/-- `BuddyFrameAllocator::free_list_remove`: remove the first occurrence of
a block from a free list; the boolean reports whether it was found. -/
def free_list_remove : List Nat → Nat → Bool × List Nat
  | [], _ => (false, [])
  | x :: xs, b =>
      if x = b then (true, xs)
      else ((free_list_remove xs b).1, x :: (free_list_remove xs b).2)

/-- `BuddyFrameAllocator::split_free_block`: repeatedly halve a block of
order `order` down to `order_needed`, pushing each upper half on the free
list of its order (`m` is `min_block_size_log2`, so a block of order `o`
has size `2 ^ (m + o)`). -/
def split_free_block (m block : Nat) :
    Nat → Nat → (Nat → List Nat) → (Nat → List Nat)
  | 0, _, fl => fl
  | o + 1, order_needed, fl =>
      if o + 1 ≤ order_needed then fl
      else split_free_block m block o order_needed
        (free_list_insert fl o (block + 2 ^ (m + o)))

/-- `BuddyFrameAllocator::buddy`: the potential merge partner of a block,
found by XOR-ing the block size into the offset from the region base; the
whole heap has no buddy. -/
def buddyOf (a : BuddyFrameAllocator) (order block : Nat) : Option Nat :=
  let relative := block - a.region.base
  let size := order_to_size a order
  if size ≥ a.region.size then none
  else some (a.region.base + (relative ^^^ size))

/-- The search loop of `allocate_frame`: starting at the needed order, find
the first non-empty free list (up to `free_lists.len()`), returning the
order found, the popped block and the updated lists. -/
def find_free_block (fl : Nat → List Nat) :
    Nat → Nat → Option (Nat × Nat × (Nat → List Nat))
  | _, 0 => none
  | order, fuel + 1 =>
      match free_list_pop fl order with
      | some (b, fl1) => some (order, b, fl1)
      | none => find_free_block fl (order + 1) fuel

/-- `BuddyFrameAllocator::allocate_frame`: compute the order, search the
free lists upwards, split an over-sized block down, and account for the
allocated bytes and the internal fragmentation. -/
def allocate_frame (a : BuddyFrameAllocator) (size align : Nat) :
    Except AllocationError (Frame × BuddyFrameAllocator) :=
  match layout_to_order a size align with
  | none => Except.error AllocationError.InvalidLayout
  | some order_needed =>
      match find_free_block a.free_lists order_needed
          (FREE_LISTS_LEN - order_needed) with
      | none => Except.error AllocationError.CacheExhausted
      | some (order, block, fl1) =>
          let fl2 := if order_needed < order
            then split_free_block a.min_block_size_log2 block order order_needed fl1
            else fl1
          let fsize := order_to_size a order_needed
          Except.ok (⟨block, fsize, a.region.affinity⟩,
            { a with
                free_lists := fl2
                allocated_bytes := a.allocated_bytes + fsize
                internal_fragmentation :=
                  a.internal_fragmentation + (fsize - size) })

/-- The merge loop of `deallocate_frame`: walk the orders upwards from the
initial order (the Rust `for` loop runs to `free_lists.len()`, embodied by
`fuel`); while the buddy of the current block is free, remove it and merge,
otherwise insert the block and stop. -/
def deallocate_loop (a : BuddyFrameAllocator) :
    (Nat → List Nat) → Nat → Nat → Nat → (Nat → List Nat)
  | fl, _, _, 0 => fl
  | fl, block, order, fuel + 1 =>
      match buddyOf a order block with
      | some bud =>
          let r := free_list_remove (fl order) bud
          if r.1 then
            deallocate_loop a (Function.update fl order r.2) (min block bud)
              (order + 1) fuel
          else free_list_insert fl order block
      | none => free_list_insert fl order block

/-- `BuddyFrameAllocator::deallocate_frame`: recompute the order from the
layout (`none` models the `expect` panic on an invalid layout), subtract
the accounting, and run the merge loop. -/
def deallocate_frame (a : BuddyFrameAllocator) (frame : Frame)
    (size align : Nat) : Option BuddyFrameAllocator :=
  match layout_to_order a size align with
  | none => none
  | some initial_order =>
      some { a with
        allocated_bytes := a.allocated_bytes - frame.size
        internal_fragmentation := a.internal_fragmentation - (frame.size - size)
        free_lists := deallocate_loop a a.free_lists frame.base initial_order
          (FREE_LISTS_LEN - initial_order) }

/-- Whether a number is a power of two (Rust `usize::is_power_of_two`). -/
def isPow2 (n : Nat) : Bool := n != 0 && n == 2 ^ log2 n

/-- `BuddyFrameAllocator::add_memory`: accepted only while no region is
managed (`region.base == 0`); the managed size becomes
`next_power_of_two(region.size) >> 1` (any remainder is only logged as
lost), the root block is inserted at the order of that size, and the heap
alignment follows the region base. `none` models the `expect` panic when
the order cannot be computed. -/
def add_memory (a : BuddyFrameAllocator) (region : Frame) :
    Option (Bool × BuddyFrameAllocator) :=
  if a.region.base = 0 then
    match layout_to_order
        { a with region := ⟨a.region.base,
            nextPowerOfTwo region.size / 2, a.region.affinity⟩ }
        (nextPowerOfTwo region.size / 2) 1 with
    | none => none
    | some order =>
        some (true,
          { a with
            region := ⟨a.region.base,
              nextPowerOfTwo region.size / 2, region.affinity⟩
            min_heap_align := if region.base % LARGE_PAGE_SIZE = 0
              then LARGE_PAGE_SIZE else BASE_PAGE_SIZE
            free_lists := free_list_insert a.free_lists order region.base })
  else some (false, a)

/-- `BuddyFrameAllocator::new_test_instance` (the `#[cfg(test)]`
constructor used by the buddy unit tests): checked preconditions
(`assert!`s, `none` on failure), then a fresh allocator over `region` with
the whole region inserted as one root block. -/
def new_test_instance (region : Frame) (min_block_size : Nat) :
    Option BuddyFrameAllocator :=
  if region.base > BASE_PAGE_SIZE ∧ isPow2 region.size = true ∧
      region.base % BASE_PAGE_SIZE = 0 ∧ min_block_size ≤ region.size ∧
      8 ≤ min_block_size ∧
      region.size ≤ min_block_size * 2 ^ (FREE_LISTS_LEN - 1) then
    match layout_to_order (BuddyFrameAllocator.mk region 0 0 (fun _ => [])
        (if region.base % LARGE_PAGE_SIZE = 0 then LARGE_PAGE_SIZE
         else BASE_PAGE_SIZE) min_block_size (log2 min_block_size))
        region.size 1 with
    | none => none
    | some order =>
        some (BuddyFrameAllocator.mk region 0 0
          (free_list_insert (fun _ => []) order region.base)
          (if region.base % LARGE_PAGE_SIZE = 0 then LARGE_PAGE_SIZE
           else BASE_PAGE_SIZE) min_block_size (log2 min_block_size))
  else none

/-- The free lists left behind after splitting the root block of order `K`
down to order `k`: one half block at each order of `[k, K)`. -/
def splitLists (m base k K : Nat) : Nat → List Nat :=
  fun j => if k ≤ j ∧ j < K then [base + 2 ^ (m + j)] else []

/-- Unfolding of `split_free_block`: splitting a block down from order `o`
to order `k` pushes one upper half on each order of `[k, o)`. -/
theorem split_free_block_eq (m base k : Nat) : ∀ (o : Nat) (fl : Nat → List Nat),
    split_free_block m base o k fl =
      fun j => if k ≤ j ∧ j < o then (base + 2 ^ (m + j)) :: fl j else fl j := by
  intro o
  induction o with
  | zero =>
    intro fl
    funext j
    simp [split_free_block]
  | succ o ih =>
    intro fl
    unfold split_free_block
    by_cases ho : o + 1 ≤ k
    · rw [if_pos ho]
      funext j
      rw [if_neg (by omega)]
    · rw [if_neg ho, ih]
      funext j
      unfold free_list_insert
      by_cases hj : j = o
      · subst hj
        rw [if_neg (by omega), if_pos (by omega), Function.update_same]
      · rw [Function.update_noteq hj]
        by_cases hjo : k ≤ j ∧ j < o
        · rw [if_pos hjo, if_pos (by omega)]
        · rw [if_neg hjo, if_neg (by omega)]

/-- Searching the initial free lists (a single root block at order `K`) from
any order `k ≤ K` finds the root block at order `K`. -/
theorem find_free_block_single (base K : Nat) : ∀ (fuel k : Nat), k ≤ K →
    K < k + fuel →
    find_free_block (Function.update (fun _ => []) K [base]) k fuel =
      some (K, base, Function.update (Function.update (fun _ => []) K [base]) K []) := by
  intro fuel
  induction fuel with
  | zero => omega
  | succ fuel ih =>
    intro k hk hfuel
    unfold find_free_block free_list_pop
    by_cases hkK : k = K
    · subst hkK
      rw [Function.update_same]
    · have hne : Function.update (fun _ => ([] : List Nat)) K [base] k = [] :=
        Function.update_noteq hkK _ _
      rw [hne]
      exact ih (k + 1) (by omega) (by omega)

/-- One full merge run: starting from the split lists at order `j ≤ K` with
the original block, `deallocate_loop` merges all the way back up and leaves
exactly the initial root block at order `K`. The allocator `A` only
contributes its region and `min_block_size_log2`. -/
theorem deallocate_loop_merges (A : BuddyFrameAllocator) (base m K aff : Nat)
    (hreg : A.region = ⟨base, 2 ^ (m + K), aff⟩)
    (hlog : A.min_block_size_log2 = m) :
    ∀ (d j fuel : Nat), j + d = K → K < j + fuel →
    deallocate_loop A (splitLists m base j K) base j fuel =
      Function.update (fun _ => []) K [base] := by
  intro d
  induction d with
  | zero =>
    intro j fuel hj hfuel
    subst hj
    simp only [Nat.add_zero] at *
    cases fuel with
    | zero => omega
    | succ fuel =>
      unfold deallocate_loop
      have hb : buddyOf A j base = none := by
        unfold buddyOf order_to_size
        rw [if_pos (by rw [hreg, hlog])]
      simp only [hb]
      unfold free_list_insert
      have h0 : splitLists m base j j = fun _ => [] := by
        funext i
        unfold splitLists
        rw [if_neg (by omega)]
      rw [h0]
  | succ d ih =>
    intro j fuel hj hfuel
    cases fuel with
    | zero => omega
    | succ fuel =>
      unfold deallocate_loop
      have hb : buddyOf A j base = some (base + 2 ^ (m + j)) := by
        unfold buddyOf order_to_size
        rw [if_neg (by
          rw [hreg, hlog]
          simp only [not_le]
          exact Nat.pow_lt_pow_right (by norm_num) (by omega))]
        rw [hreg, hlog]
        simp [Nat.sub_self]
      simp only [hb]
      have hlist : splitLists m base j K j = [base + 2 ^ (m + j)] := by
        unfold splitLists
        rw [if_pos (by omega)]
      have hrem : free_list_remove (splitLists m base j K j) (base + 2 ^ (m + j)) =
          (true, []) := by
        rw [hlist]
        unfold free_list_remove
        rw [if_pos rfl]
      simp only [hrem, if_true]
      have hupd : Function.update (splitLists m base j K) j ([] : List Nat) =
          splitLists m base (j + 1) K := by
        funext i
        by_cases hij : i = j
        · subst hij
          rw [Function.update_same]
          unfold splitLists
          rw [if_neg (by omega)]
        · rw [Function.update_noteq hij]
          unfold splitLists
          by_cases hi : j ≤ i ∧ i < K
          · rw [if_pos hi, if_pos (by omega)]
          · rw [if_neg hi, if_neg (by omega)]
      have hmin : min base (base + 2 ^ (m + j)) = base :=
        min_eq_left (Nat.le_add_right _ _)
      rw [hupd, hmin]
      exact ih (j + 1) fuel (by omega) (by omega)

/-- `layout_to_order` of a whole power-of-two region is the top order of the
region (`log2(region_size) - log2(min_block_size)`). -/
theorem layout_to_order_region_aux (a : BuddyFrameAllocator) (m K : Nat)
    (hmb : a.min_block_size = 2 ^ m) (hlog : a.min_block_size_log2 = m)
    (hrs : a.region.size = 2 ^ (m + K)) (hha : 1 ≤ a.min_heap_align) :
    layout_to_order a (2 ^ (m + K)) 1 = some K := by
  have hmK : (2 : Nat) ^ m ≤ 2 ^ (m + K) :=
    Nat.pow_le_pow_right (by norm_num) (Nat.le_add_right m K)
  unfold layout_to_order allocation_size
  rw [if_neg (by omega)]
  rw [hmb, hrs]
  have hmax : max (max (2 ^ (m + K)) 1) (2 ^ m) = 2 ^ (m + K) := by
    rw [max_eq_left Nat.one_le_two_pow]
    exact max_eq_left hmK
  rw [hmax, nextPowerOfTwo_two_pow, if_pos le_rfl]
  simp [log2_two_pow, hlog]

/-- `new_test_instance` on a power-of-two region with a power-of-two minimum
block size: the checks pass and the allocator starts with a single root
block of top order `K` at the region base. -/
theorem new_test_instance_pow (base m K aff : Nat) (hb : BASE_PAGE_SIZE < base)
    (hba : base % BASE_PAGE_SIZE = 0) (hm : 3 ≤ m) (hK : K ≤ FREE_LISTS_LEN - 1) :
    new_test_instance ⟨base, 2 ^ (m + K), aff⟩ (2 ^ m) =
      some (BuddyFrameAllocator.mk ⟨base, 2 ^ (m + K), aff⟩ 0 0
        (Function.update (fun _ => []) K [base])
        (if base % LARGE_PAGE_SIZE = 0 then LARGE_PAGE_SIZE else BASE_PAGE_SIZE)
        (2 ^ m) m) := by
  have hmlog : log2 (2 ^ m) = m := log2_two_pow m
  unfold new_test_instance
  rw [if_pos]
  case hc =>
    refine ⟨hb, ?_, hba, ?_, ?_, ?_⟩
    · unfold isPow2
      rw [log2_two_pow]
      simp
    · exact Nat.pow_le_pow_right (by norm_num) (Nat.le_add_right m K)
    · calc (8 : Nat) = 2 ^ 3 := by norm_num
        _ ≤ 2 ^ m := Nat.pow_le_pow_right (by norm_num) hm
    · rw [← pow_add]
      exact Nat.pow_le_pow_right (by norm_num) (by
        unfold FREE_LISTS_LEN at hK ⊢
        omega)
  have hord : layout_to_order (BuddyFrameAllocator.mk ⟨base, 2 ^ (m + K), aff⟩ 0 0
      (fun _ => [])
      (if base % LARGE_PAGE_SIZE = 0 then LARGE_PAGE_SIZE else BASE_PAGE_SIZE)
      (2 ^ m) (log2 (2 ^ m))) (2 ^ (m + K)) 1 = some K := by
    apply layout_to_order_region_aux _ m K rfl hmlog rfl
    show 1 ≤ (if base % LARGE_PAGE_SIZE = 0 then LARGE_PAGE_SIZE else BASE_PAGE_SIZE)
    split <;> norm_num [LARGE_PAGE_SIZE, BASE_PAGE_SIZE]
  simp only [hord]
  rw [hmlog]
  rfl

/-- Inversion of a successful `allocation_size` on a power-of-two heap: the
granted size is a power of two `2 ^ (m + k)` for an order `k` within the
region's top order, and `layout_to_order` yields exactly that `k`. -/
theorem allocation_size_inv (a : BuddyFrameAllocator) (m K size align s : Nat)
    (hmb : a.min_block_size = 2 ^ m) (hlog : a.min_block_size_log2 = m)
    (hrs : a.region.size = 2 ^ (m + K))
    (hs : allocation_size a size align = some s) :
    ∃ k, k ≤ K ∧ s = 2 ^ (m + k) ∧ layout_to_order a size align = some k := by
  have hcond : ¬ align > a.min_heap_align ∧
      nextPowerOfTwo (max (max size align) a.min_block_size) ≤ a.region.size ∧
      s = nextPowerOfTwo (max (max size align) a.min_block_size) := by
    unfold allocation_size at hs
    split_ifs at hs with h1 h2
    exact ⟨h1, h2, (Option.some.inj hs).symm⟩
  obtain ⟨h1, h2, hseq⟩ := hcond
  rw [nextPowerOfTwo_eq] at hseq
  have hme : m ≤ Nat.clog 2 (max (max size align) a.min_block_size) := by
    have ha1 : (2 : Nat) ^ m ≤ max (max size align) a.min_block_size := by
      rw [← hmb]
      exact le_max_right _ _
    have ha2 : max (max size align) a.min_block_size ≤
        2 ^ Nat.clog 2 (max (max size align) a.min_block_size) :=
      Nat.le_pow_clog (by norm_num) _
    exact (Nat.pow_le_pow_iff_right (by norm_num)).1 (le_trans ha1 ha2)
  have heK : Nat.clog 2 (max (max size align) a.min_block_size) ≤ m + K := by
    have := h2
    rw [nextPowerOfTwo_eq, hrs] at this
    exact (Nat.pow_le_pow_iff_right (by norm_num)).1 this
  refine ⟨Nat.clog 2 (max (max size align) a.min_block_size) - m, by omega, ?_, ?_⟩
  · rw [hseq]
    congr 1
    omega
  · unfold layout_to_order allocation_size
    rw [if_neg h1, if_pos h2]
    rw [Option.map_some']
    congr 1
    rw [nextPowerOfTwo_eq]
    rw [show (2 : Nat) ^ Nat.clog 2 (max (max size align) a.min_block_size) =
      2 ^ (m + (Nat.clog 2 (max (max size align) a.min_block_size) - m)) by
        congr 1; omega]
    rw [log2_two_pow, hlog]
    omega

end Buddy

namespace Syscall

/-- The kernel error type as visible from `user_virt_addr_valid`
(`KError::BadAddress` plus opaque errors propagated from `resolve`). -/
inductive KError where
  | BadAddress
  | NotMapped
  | ProcessNotSet
  | Other
  deriving Repr, DecidableEq

/-- The error component of a `resolve` result (`none` = success). -/
def errOf : Except KError (Nat × Nat) → Option KError
  | Except.ok _ => none
  | Except.error e => some e

/-- `resolve` walks page tables, so whether it succeeds (and with which
error it fails) depends only on the base page of the queried address. -/
def PageGranular (resolve : Nat → Except KError (Nat × Nat)) : Prop :=
  ∀ a b, a / BASE_PAGE_SIZE = b / BASE_PAGE_SIZE → errOf (resolve a) = errOf (resolve b)

/-- The `while base <= upper_addr` loop of `user_virt_addr_valid` in
`arch/x86_64/syscall.rs`: step a base page at a time; once at most one page
remains, resolve the current address and then the last byte
`upper_addr - 1` (u64 arithmetic wraps, hence the `% 2^64`). Falling out of
the loop returns `Ok((base, size))`. `resolve` is the
`KernelNode::resolve(pid, ·)` oracle. -/
def uvav_loop (resolve : Nat → Except KError (Nat × Nat)) (size upper : Nat) :
    Nat → Except KError (Nat × Nat)
  | base =>
    if hle : base ≤ upper then
      if hsm : upper - base ≤ BASE_PAGE_SIZE then
        match resolve base with
        | Except.ok _ => resolve ((upper + (U64 - 1)) % U64)
        | Except.error e => Except.error e
      else
        match resolve base with
        | Except.ok _ => uvav_loop resolve size upper (base + BASE_PAGE_SIZE)
        | Except.error e => Except.error e
    else Except.ok (base, size)
  termination_by base => upper - base
  decreasing_by
    unfold BASE_PAGE_SIZE at hsm ⊢
    omega

/-- `user_virt_addr_valid` from `arch/x86_64/syscall.rs`: refuse ranges
whose (wrapping) end `base + size` is at or above `KERNEL_BASE`, otherwise
walk the range through `resolve`. -/
def user_virt_addr_valid (resolve : Nat → Except KError (Nat × Nat))
    (base size : Nat) : Except KError (Nat × Nat) :=
  if (base + size) % U64 < KERNEL_BASE then
    uvav_loop resolve size ((base + size) % U64) base
  else Except.error KError.BadAddress

/-- The addresses whose pages `user_virt_addr_valid(base, size)` actually
probes (for a non-wrapping range below `KERNEL_BASE`): one representative
in every base page meeting `[base, base + size)` — just `base` itself when
`size = 0` — plus the wrapped last byte `base + size - 1` (which is
`base - 1` when `size = 0`). -/
def Probed (base size a : Nat) : Prop :=
  (base ≤ a ∧ a < max (base + 1) (base + size)) ∨
    a = (base + size + (U64 - 1)) % U64

/-- The resolve oracle of the C4 counterexample: exactly page 0 is mapped. -/
def crOracle : Nat → Except KError (Nat × Nat) :=
  fun a => if a < BASE_PAGE_SIZE then Except.ok (a, 0)
    else Except.error KError.BadAddress

/-- `errOf` is `none` exactly on successful results. -/
theorem errOf_none_iff (r : Except KError (Nat × Nat)) :
    errOf r = none ↔ r.isOk = true := by
  cases r <;> simp [errOf, Except.isOk, Except.toBool]

/-- One-step unfolding of the walk loop (non-dependent form). -/
theorem uvav_loop_eq (resolve : Nat → Except KError (Nat × Nat))
    (size upper base : Nat) :
    uvav_loop resolve size upper base =
      if base ≤ upper then
        if upper - base ≤ BASE_PAGE_SIZE then
          match resolve base with
          | Except.ok _ => resolve ((upper + (U64 - 1)) % U64)
          | Except.error e => Except.error e
        else
          match resolve base with
          | Except.ok _ => uvav_loop resolve size upper (base + BASE_PAGE_SIZE)
          | Except.error e => Except.error e
      else Except.ok (base, size) := by
  rw [uvav_loop]
  simp only [dite_eq_ite]

/-- Any address between two addresses at most one page apart lies on the
page of one of the two. -/
theorem page_cover_small (base a c : Nat) (h1 : base ≤ a) (h2 : a ≤ c)
    (h3 : c ≤ base + BASE_PAGE_SIZE) :
    a / BASE_PAGE_SIZE = base / BASE_PAGE_SIZE ∨
      a / BASE_PAGE_SIZE = c / BASE_PAGE_SIZE := by
  have hmono1 : base / BASE_PAGE_SIZE ≤ a / BASE_PAGE_SIZE := Nat.div_le_div_right h1
  have hmono2 : a / BASE_PAGE_SIZE ≤ c / BASE_PAGE_SIZE := Nat.div_le_div_right h2
  have hcb : c / BASE_PAGE_SIZE ≤ base / BASE_PAGE_SIZE + 1 := by
    calc c / BASE_PAGE_SIZE ≤ (base + BASE_PAGE_SIZE) / BASE_PAGE_SIZE :=
          Nat.div_le_div_right h3
      _ = base / BASE_PAGE_SIZE + 1 :=
          Nat.add_div_right base (by unfold BASE_PAGE_SIZE; omega)
  omega

/-- Full characterization of the walk loop: it succeeds exactly when
`resolve` succeeds on (one representative of) every page it steps over and
on the wrapped last byte, and any error it returns is one reported by
`resolve` at such an address. -/
theorem uvav_loop_spec (resolve : Nat → Except KError (Nat × Nat))
    (hgr : PageGranular resolve) (size upper : Nat) (hupper : upper < U64) :
    ∀ n base, upper - base = n → base ≤ upper →
      (((uvav_loop resolve size upper base).isOk = true) ↔
        ∀ a, ((base ≤ a ∧ a < max (base + 1) upper) ∨
            a = (upper + (U64 - 1)) % U64) →
          (resolve a).isOk = true) ∧
      (∀ e, uvav_loop resolve size upper base = Except.error e →
        ∃ a, ((base ≤ a ∧ a < max (base + 1) upper) ∨
            a = (upper + (U64 - 1)) % U64) ∧
          errOf (resolve a) = some e) := by
  have hP : BASE_PAGE_SIZE = 4096 := rfl
  have hwb1 : 1 ≤ upper → (upper + (U64 - 1)) % U64 = upper - 1 := by
    intro h1
    have he : upper + (U64 - 1) = (upper - 1) + U64 := by unfold U64 at *; omega
    rw [he, Nat.add_mod_right]
    exact Nat.mod_eq_of_lt (by unfold U64 at *; omega)
  intro n
  induction n using Nat.strong_induction_on with
  | _ n ih =>
  intro base hn hbase
  rw [uvav_loop_eq, if_pos hbase]
  have hbmem : base ≤ base ∧ base < max (base + 1) upper :=
    ⟨le_rfl, lt_of_lt_of_le (Nat.lt_succ_self base) (le_max_left _ _)⟩
  by_cases hsm : upper - base ≤ BASE_PAGE_SIZE
  · rw [if_pos hsm]
    cases hrb : resolve base with
    | error e =>
      refine ⟨⟨fun hok => absurd hok (by simp [Except.isOk, Except.toBool]), fun hall => ?_⟩, ?_⟩
      · have := hall base (Or.inl hbmem)
        rw [hrb] at this
        simp [Except.isOk, Except.toBool] at this
      · intro e2 he2
        refine ⟨base, Or.inl hbmem, ?_⟩
        rw [hrb]
        cases he2
        rfl
    | ok v =>
      cases hrw : resolve ((upper + (U64 - 1)) % U64) with
      | error w =>
        refine ⟨⟨fun hok => absurd hok (by simp [Except.isOk, Except.toBool]), fun hall => ?_⟩, ?_⟩
        · have := hall _ (Or.inr rfl)
          rw [hrw] at this
          simp [Except.isOk, Except.toBool] at this
        · intro e2 he2
          refine ⟨_, Or.inr rfl, ?_⟩
          rw [hrw]
          cases he2
          rfl
      | ok w =>
        refine ⟨⟨fun _ => ?_, fun _ => rfl⟩, ?_⟩
        · intro a ha
          rcases ha with ⟨ha1, ha2⟩ | hawb
          · rw [lt_max_iff, Nat.lt_succ_iff] at ha2
            by_cases hab : a = base
            · subst hab
              rw [hrb]
              rfl
            · have haup : a < upper := by
                rcases ha2 with h | h
                · omega
                · exact h
              have hup1 : 1 ≤ upper := by omega
              have hcov := page_cover_small base a (upper - 1) ha1 (by omega)
                (by unfold BASE_PAGE_SIZE at *; omega)
              rw [← errOf_none_iff]
              rcases hcov with hcv | hcv
              · rw [hgr a base hcv, hrb]
                rfl
              · rw [hgr a (upper - 1) hcv, ← hwb1 hup1, hrw]
                rfl
          · rw [hawb, hrw]
            rfl
        · intro e2 he2
          cases he2
  · rw [if_neg hsm]
    have hup1 : base + BASE_PAGE_SIZE + 1 ≤ upper := by
      unfold BASE_PAGE_SIZE at *; omega
    have hmax1 : max (base + 1) upper = upper := max_eq_right (by omega)
    have hmax2 : max (base + BASE_PAGE_SIZE + 1) upper = upper :=
      max_eq_right (by omega)
    have hsub : ∀ a, ((base + BASE_PAGE_SIZE ≤ a ∧
        a < max (base + BASE_PAGE_SIZE + 1) upper) ∨
          a = (upper + (U64 - 1)) % U64) →
        ((base ≤ a ∧ a < max (base + 1) upper) ∨
          a = (upper + (U64 - 1)) % U64) := by
      intro a ha
      rcases ha with ⟨ha1, ha2⟩ | h
      · rw [hmax2] at ha2
        rw [hmax1]
        exact Or.inl ⟨by omega, ha2⟩
      · exact Or.inr h
    cases hrb : resolve base with
    | error e =>
      refine ⟨⟨fun hok => absurd hok (by simp [Except.isOk, Except.toBool]), fun hall => ?_⟩, ?_⟩
      · have := hall base (Or.inl hbmem)
        rw [hrb] at this
        simp [Except.isOk, Except.toBool] at this
      · intro e2 he2
        refine ⟨base, Or.inl hbmem, ?_⟩
        rw [hrb]
        cases he2
        rfl
    | ok v =>
      obtain ⟨hrec1, hrec2⟩ := ih (upper - (base + BASE_PAGE_SIZE))
        (by unfold BASE_PAGE_SIZE at *; omega) (base + BASE_PAGE_SIZE) rfl
        (by omega)
      refine ⟨⟨fun hok => ?_, fun hall => ?_⟩, ?_⟩
      · intro a ha
        rcases ha with ⟨ha1, ha2⟩ | hwb
        · rw [hmax1] at ha2
          by_cases hap : a < base + BASE_PAGE_SIZE
          · rcases page_cover_small base a (base + BASE_PAGE_SIZE) ha1
              (by omega) le_rfl with hcv | hcv
            · rw [← errOf_none_iff, hgr a base hcv, hrb]
              rfl
            · have hin : (resolve (base + BASE_PAGE_SIZE)).isOk = true :=
                hrec1.1 hok _ (Or.inl ⟨le_rfl, by rw [hmax2]; omega⟩)
              rw [← errOf_none_iff, hgr a (base + BASE_PAGE_SIZE) hcv,
                errOf_none_iff]
              exact hin
          · exact hrec1.1 hok a (Or.inl ⟨by omega, by rw [hmax2]; exact ha2⟩)
        · exact hrec1.1 hok a (Or.inr hwb)
      · exact hrec1.2 (fun a ha => hall a (hsub a ha))
      · intro e2 he2
        obtain ⟨a, ha, hae⟩ := hrec2 e2 he2
        exact ⟨a, hsub a ha, hae⟩

end Syscall

namespace Vas

/-- The eight `MapAction` rights variants (§4.2 of the spec; generated by
`map_rights()` in `arch/x86_64/vspace/test.rs`). -/
inductive Rights where
  | readUser
  | readKernel
  | readWriteUser
  | readWriteKernel
  | readExecuteUser
  | readExecuteKernel
  | readWriteExecuteUser
  | readWriteExecuteKernel
  deriving Repr, DecidableEq

/-- Modelled from the spec: the `AddressSpaceError` variants named by §4.2
and the test harness (`AlreadyMapped{base}` on overlap, `NotMapped` for
adjust/resolve/unmap misses) plus a common rejection of a misaligned
vaddr/frame pair ("Bad input", §7); `vspace/mod.rs` itself is not under
`src/`. -/
inductive AddressSpaceError where
  | AlreadyMapped (base : Nat)
  | NotMapped
  | InvalidBase
  deriving Repr, DecidableEq

/-- The per-step results observable to the `model_equivalence` proptest:
the success value of each operation, or its error. An unmap success carries
the `TlbFlushHandle` contents compared by the test (leaf vaddr and frame). -/
inductive OpResult where
  | mapOk
  | adjustOk
  | resolveOk (paddr : Nat) (r : Rights)
  | unmapOk (vaddr fbase fsize : Nat)
  | err (e : AddressSpaceError)
  deriving Repr, DecidableEq

/-- `TestAction` from `arch/x86_64/vspace/test.rs`. -/
inductive TestAction where
  | map (va : Nat) (f : Frame) (r : Rights)
  | adjust (va : Nat) (r : Rights)
  | resolveAct (va : Nat)
  | unmap (va : Nat)
  deriving Repr, DecidableEq

/-- The common map precondition of §4.2: the frame is one base or one large
page, and both the vaddr and the frame base are aligned to the frame size
("vaddr and frame.base must be page-aligned...; for large-page mappings,
2 MiB-aligned on both sides"). -/
def frame_ok (va : Nat) (f : Frame) : Bool :=
  (f.size == BASE_PAGE_SIZE || f.size == LARGE_PAGE_SIZE) &&
    va % f.size == 0 && f.base % f.size == 0

/-- Two half-open ranges `[a, a+la)` and `[b, b+lb)` intersect. -/
def overlaps (a la b lb : Nat) : Bool := a < b + lb && b < a + la

/-- An entry of the flat model map: vaddr key, physical base, length and
rights. -/
structure ModelEntry where
  va : Nat
  pbase : Nat
  len : Nat
  rights : Rights
  deriving Repr, DecidableEq

/-- Modelled from the spec: `ModelAddressSpace` (§4.2), "a flat ordered map
keyed by `vaddr` with length and rights" (the physical base is also stored,
as `resolve`/`unmap` return it); `vspace/model.rs` is not under `src/`. -/
abbrev ModelAddressSpace := List ModelEntry

/-- An entry contains an address. -/
def entryContains (e : ModelEntry) (va : Nat) : Bool :=
  e.va ≤ va && va < e.va + e.len

/-- Modelled from the spec: the model `map_frame` — "map rejects any
overlap" (reporting the conflicting entry's base as its `AlreadyMapped`
witness), otherwise the mapping is inserted. -/
def model_map (L : ModelAddressSpace) (va : Nat) (f : Frame) (r : Rights) :
    OpResult × ModelAddressSpace :=
  if frame_ok va f then
    match L.find? (fun e => overlaps va f.size e.va e.len) with
    | some e => (OpResult.err (AddressSpaceError.AlreadyMapped e.va), L)
    | none => (OpResult.mapOk, ModelEntry.mk va f.base f.size r :: L)
  else (OpResult.err AddressSpaceError.InvalidBase, L)

/-- Modelled from the spec: the model `adjust` — "adjust updates in place"
the rights of the entry covering the address, `NotMapped` if absent. -/
def model_adjust (L : ModelAddressSpace) (va : Nat) (r : Rights) :
    OpResult × ModelAddressSpace :=
  match L.find? (fun e => entryContains e va) with
  | some e => (OpResult.adjustOk,
      L.map (fun e2 => if e2.va == e.va then
        ModelEntry.mk e2.va e2.pbase e2.len r else e2))
  | none => (OpResult.err AddressSpaceError.NotMapped, L)

/-- Modelled from the spec: the model `resolve` — "resolve scans" for the
entry covering the address and translates through it. -/
def model_resolve (L : ModelAddressSpace) (va : Nat) :
    OpResult × ModelAddressSpace :=
  match L.find? (fun e => entryContains e va) with
  | some e => (OpResult.resolveOk (e.pbase + (va - e.va)) e.rights, L)
  | none => (OpResult.err AddressSpaceError.NotMapped, L)

/-- Modelled from the spec: the model `unmap` — "unmap removes the exact
key", returning the removed mapping as the flush handle. -/
def model_unmap (L : ModelAddressSpace) (va : Nat) :
    OpResult × ModelAddressSpace :=
  match L.find? (fun e => e.va == va) with
  | some e => (OpResult.unmapOk va e.pbase e.len,
      L.filter (fun e2 => e2.va != va))
  | none => (OpResult.err AddressSpaceError.NotMapped, L)

/-- One model step. -/
def stepModel (L : ModelAddressSpace) : TestAction → OpResult × ModelAddressSpace
  | TestAction.map va f r => model_map L va f r
  | TestAction.adjust va r => model_adjust L va r
  | TestAction.resolveAct va => model_resolve L va
  | TestAction.unmap va => model_unmap L va

/-- A page table: 512 4-KiB leaf slots (`paddr`, rights); embedded as a
function, only indices below 512 are ever populated or read. -/
def PT : Type := Nat → Option (Nat × Rights)

/-- A page-directory entry: empty, a 2-MiB large-page leaf (PS bit), or a
pointer to a page table. -/
inductive PDE where
  | empty
  | large (p : Nat) (r : Rights)
  | table (pt : PT)

/-- A page directory. -/
def PD : Type := Nat → PDE

/-- A page-directory-pointer table (1-GiB leaves are not used by the
operations modelled here). -/
def PDPT : Type := Nat → Option PD

/-- A PML4. -/
def PML4 : Type := Nat → Option PDPT

/-- Modelled from the spec: the real `VSpace` — a four-level page-table
tree per §3 ("Page-table tree", PML4 → PDPT → PD → PT); `vspace/mod.rs` is
not under `src/`. -/
structure VSpace where
  pml4 : PML4

/-- A fresh address space (`VSpace::new()`): nothing mapped. -/
def VSpace.new : VSpace := ⟨fun _ => none⟩

/-- The PML4 index of a virtual address (bits 47:39). -/
def pml4_idx (va : Nat) : Nat := va / 2 ^ 39 % 512

/-- The PDPT index of a virtual address (bits 38:30). -/
def pdpt_idx (va : Nat) : Nat := va / 2 ^ 30 % 512

/-- The PD index of a virtual address (bits 29:21). -/
def pd_idx (va : Nat) : Nat := va / 2 ^ 21 % 512

/-- The PT index of a virtual address (bits 20:12). -/
def pt_idx (va : Nat) : Nat := va / 2 ^ 12 % 512

/-- Walk the top three levels to the PD entry responsible for `va`
(missing intermediate tables read as an empty entry). -/
def pdAt (s : VSpace) (va : Nat) : PDE :=
  match s.pml4 (pml4_idx va) with
  | none => PDE.empty
  | some pdpt =>
      match pdpt (pdpt_idx va) with
      | none => PDE.empty
      | some pd => pd (pd_idx va)

/-- The PDPT reached (or freshly created) on the path of `va`. -/
def pdptOf (s : VSpace) (va : Nat) : PDPT :=
  match s.pml4 (pml4_idx va) with
  | none => fun _ => none
  | some pdpt => pdpt

/-- The PD reached (or freshly created) on the path of `va`. -/
def pdOf (s : VSpace) (va : Nat) : PD :=
  match pdptOf s va (pdpt_idx va) with
  | none => fun _ => PDE.empty
  | some pd => pd

/-- Install a PD entry for `va`, creating the intermediate tables if
missing (the real implementation allocates them from the local TCache). -/
def setPD (s : VSpace) (va : Nat) (pde : PDE) : VSpace :=
  ⟨Function.update s.pml4 (pml4_idx va)
    (some (Function.update (pdptOf s va) (pdpt_idx va)
      (some (Function.update (pdOf s va) (pd_idx va) pde))))⟩

/-- Whether any of the first `n` slots of a page table is present (the
present-leaf scan of the large-page overlap check). -/
def ptAny (pt : PT) : Nat → Bool
  | 0 => false
  | n + 1 => (pt n).isSome || ptAny pt n

/-- Modelled from the spec: the real `map_frame` (§4.2) — reject a
misaligned vaddr/frame, then install the leaf (a PD large-page leaf or a PT
entry), failing `AlreadyMapped{base}` iff the new range overlaps an
existing present leaf ("the conflict base may point anywhere inside the
overlap"; this model reports `va`). -/
def VSpace.map_frame (s : VSpace) (va : Nat) (f : Frame) (r : Rights) :
    OpResult × VSpace :=
  if frame_ok va f then
    if f.size == LARGE_PAGE_SIZE then
      match pdAt s va with
      | PDE.large _ _ => (OpResult.err (AddressSpaceError.AlreadyMapped va), s)
      | PDE.table pt =>
          if ptAny pt 512 then
            (OpResult.err (AddressSpaceError.AlreadyMapped va), s)
          else (OpResult.mapOk, setPD s va (PDE.large f.base r))
      | PDE.empty => (OpResult.mapOk, setPD s va (PDE.large f.base r))
    else
      match pdAt s va with
      | PDE.large _ _ => (OpResult.err (AddressSpaceError.AlreadyMapped va), s)
      | PDE.table pt =>
          match pt (pt_idx va) with
          | some _ => (OpResult.err (AddressSpaceError.AlreadyMapped va), s)
          | none => (OpResult.mapOk, setPD s va
              (PDE.table (Function.update pt (pt_idx va) (some (f.base, r)))))
      | PDE.empty => (OpResult.mapOk, setPD s va
          (PDE.table (Function.update (fun _ => none) (pt_idx va)
            (some (f.base, r)))))
  else (OpResult.err AddressSpaceError.InvalidBase, s)

/-- Modelled from the spec: the real `adjust` (§4.2) — change the rights of
the existing leaf covering `va`, `NotMapped` if absent. -/
def VSpace.adjust (s : VSpace) (va : Nat) (r : Rights) : OpResult × VSpace :=
  match pdAt s va with
  | PDE.large p _ => (OpResult.adjustOk, setPD s va (PDE.large p r))
  | PDE.table pt =>
      match pt (pt_idx va) with
      | some (p, _) => (OpResult.adjustOk, setPD s va
          (PDE.table (Function.update pt (pt_idx va) (some (p, r)))))
      | none => (OpResult.err AddressSpaceError.NotMapped, s)
  | PDE.empty => (OpResult.err AddressSpaceError.NotMapped, s)

/-- Modelled from the spec: the real `resolve` (§4.2) — walk the tables and
translate through the leaf covering `va`. -/
def VSpace.resolve (s : VSpace) (va : Nat) : OpResult × VSpace :=
  match pdAt s va with
  | PDE.large p r => (OpResult.resolveOk (p + va % LARGE_PAGE_SIZE) r, s)
  | PDE.table pt =>
      match pt (pt_idx va) with
      | some (p, r) => (OpResult.resolveOk (p + va % BASE_PAGE_SIZE) r, s)
      | none => (OpResult.err AddressSpaceError.NotMapped, s)
  | PDE.empty => (OpResult.err AddressSpaceError.NotMapped, s)

/-- Modelled from the spec: the real `unmap` (§4.2) — remove "the leaf
(base or large) containing `vaddr`" and return the flush-handle contents
(the leaf base and the removed frame); `NotMapped` when no leaf covers
`va`. Removing a PT leaf leaves its (possibly now empty) page table in
place. -/
def VSpace.unmap (s : VSpace) (va : Nat) : OpResult × VSpace :=
  match pdAt s va with
  | PDE.large p _ => (OpResult.unmapOk (va - va % LARGE_PAGE_SIZE) p LARGE_PAGE_SIZE,
      setPD s va PDE.empty)
  | PDE.table pt =>
      match pt (pt_idx va) with
      | some (p, _) => (OpResult.unmapOk (va - va % BASE_PAGE_SIZE) p BASE_PAGE_SIZE,
          setPD s va (PDE.table (Function.update pt (pt_idx va) none)))
      | none => (OpResult.err AddressSpaceError.NotMapped, s)
  | PDE.empty => (OpResult.err AddressSpaceError.NotMapped, s)

/-- One step of the real implementation. -/
def stepReal (s : VSpace) : TestAction → OpResult × VSpace
  | TestAction.map va f r => VSpace.map_frame s va f r
  | TestAction.adjust va r => VSpace.adjust s va r
  | TestAction.resolveAct va => VSpace.resolve s va
  | TestAction.unmap va => VSpace.unmap s va

/-- Run one action sequence on both sides (`model_equivalence` body),
collecting the per-step result pairs. -/
def runPair : List TestAction → VSpace → ModelAddressSpace →
    List (OpResult × OpResult)
  | [], _, _ => []
  | a :: rest, s, L =>
      (((stepReal s a).1, (stepModel L a).1)) ::
        runPair rest (stepReal s a).2 (stepModel L a).2

/-- The test-harness input domain (§8): page-aligned vaddrs below 6 MiB and
frames of one base page or one large page with a frame base aligned at
least to the frame size. -/
def actionOk : TestAction → Prop
  | TestAction.map va f _ => va % BASE_PAGE_SIZE = 0 ∧ va < 0x600000 ∧
      (f.size = BASE_PAGE_SIZE ∨ f.size = LARGE_PAGE_SIZE)
  | TestAction.adjust va _ => va % BASE_PAGE_SIZE = 0 ∧ va < 0x600000
  | TestAction.resolveAct va => va % BASE_PAGE_SIZE = 0 ∧ va < 0x600000
  | TestAction.unmap va => va % BASE_PAGE_SIZE = 0 ∧ va < 0x600000

/-- Two per-step results agree, except that both sides may report
`AlreadyMapped` with different base witnesses. -/
def resultsMatch (r1 r2 : OpResult) : Prop :=
  r1 = r2 ∨ ∃ b1 b2, r1 = OpResult.err (AddressSpaceError.AlreadyMapped b1) ∧
    r2 = OpResult.err (AddressSpaceError.AlreadyMapped b2)

/-- The base virtual address of 2-MiB slot `i2` (within the low 1 GiB). -/
def slotBase (i2 : Nat) : Nat := i2 * LARGE_PAGE_SIZE

/-- Well-formedness of a model entry reachable from the test domain: one
base or large page, a vaddr aligned to its length and below 6 MiB. -/
def EntryWf (e : ModelEntry) : Prop :=
  (e.len = BASE_PAGE_SIZE ∨ e.len = LARGE_PAGE_SIZE) ∧
    e.va % e.len = 0 ∧ e.va < 0x600000

/-- All entries of the model are well formed. -/
def Inv (L : ModelAddressSpace) : Prop := ∀ e ∈ L, EntryWf e

/-- An entry lives in 2-MiB slot `i2`. -/
def inSlot (e : ModelEntry) (i2 : Nat) : Prop := e.va / LARGE_PAGE_SIZE = i2

/-- Slot-wise correspondence between the model map and a PD entry: an empty
entry means no model entry in the slot; a large leaf means exactly the one
matching large entry; a page table means every present PT slot matches a
base-page entry and vice versa. -/
def SlotRel (L : ModelAddressSpace) (i2 : Nat) : PDE → Prop
  | PDE.empty => ∀ e ∈ L, ¬ inSlot e i2
  | PDE.large p r =>
      ModelEntry.mk (slotBase i2) p LARGE_PAGE_SIZE r ∈ L ∧
        ∀ e ∈ L, inSlot e i2 →
          e = ModelEntry.mk (slotBase i2) p LARGE_PAGE_SIZE r
  | PDE.table pt =>
      (∀ i1 p r, i1 < 512 → pt i1 = some (p, r) →
        ModelEntry.mk (slotBase i2 + i1 * BASE_PAGE_SIZE) p BASE_PAGE_SIZE r ∈ L) ∧
      (∀ e ∈ L, inSlot e i2 → e.len = BASE_PAGE_SIZE ∧
        pt (pt_idx e.va) = some (e.pbase, e.rights))

/-- The refinement relation: the page-table tree agrees with the model map
on each of the three 2-MiB slots of the test domain `[0, 6 MiB)`. -/
def Rel (L : ModelAddressSpace) (s : VSpace) : Prop :=
  ∀ i2, i2 < 3 → SlotRel L i2 (pdAt s (slotBase i2))

/-- Safety of one action against the current model state: an `Unmap` only
targets the base of a mapping or an unmapped address (the situation where
the two unmap semantics of §4.2 agree). -/
def unmapSafe (L : ModelAddressSpace) : TestAction → Prop
  | TestAction.unmap va => ∀ e ∈ L, entryContains e va = true → e.va = va
  | _ => True

/-- A whole action sequence stays in the test domain and never unmaps
strictly inside a large mapping, as the model state evolves. -/
def SafeActions : ModelAddressSpace → List TestAction → Prop
  | _, [] => True
  | L, a :: rest => actionOk a ∧ unmapSafe L a ∧ SafeActions (stepModel L a).2 rest

/-- `ptAny` finds exactly the present slots below its bound. -/
theorem ptAny_iff (pt : PT) : ∀ n, ptAny pt n = true ↔ ∃ i, i < n ∧ (pt i).isSome = true := by
  intro n
  induction n with
  | zero => simp [ptAny]
  | succ n ih =>
    unfold ptAny
    rw [Bool.or_eq_true, ih]
    constructor
    · rintro (h | ⟨i, hi, hp⟩)
      · exact ⟨n, Nat.lt_succ_self n, h⟩
      · exact ⟨i, by omega, hp⟩
    · rintro ⟨i, hi, hp⟩
      by_cases hin : i = n
      · subst hin; exact Or.inl hp
      · exact Or.inr ⟨i, by omega, hp⟩

/-- Updating the PD entry for `va` changes exactly the walks that share all
three upper-level indices with `va`. -/
theorem pdAt_setPD (s : VSpace) (va va' : Nat) (pde : PDE) :
    pdAt (setPD s va pde) va' =
      if pml4_idx va' = pml4_idx va ∧ pdpt_idx va' = pdpt_idx va ∧
          pd_idx va' = pd_idx va
      then pde else pdAt s va' := by
  unfold pdAt setPD
  dsimp only
  by_cases h4 : pml4_idx va' = pml4_idx va
  · rw [h4, Function.update_same]
    dsimp only
    by_cases h3 : pdpt_idx va' = pdpt_idx va
    · rw [h3, Function.update_same]
      dsimp only
      by_cases h2 : pd_idx va' = pd_idx va
      · rw [h2, Function.update_same, if_pos ⟨rfl, rfl, rfl⟩]
      · rw [Function.update_noteq h2, if_neg (by tauto)]
        unfold pdOf pdptOf
        cases hml : s.pml4 (pml4_idx va) with
        | none => rfl
        | some pdpt =>
            dsimp only
            cases hpt : pdpt (pdpt_idx va) with
            | none => rfl
            | some pd => rfl
    · rw [Function.update_noteq h3, if_neg (by tauto)]
      unfold pdptOf
      cases hml : s.pml4 (pml4_idx va) with
      | none => rfl
      | some pdpt => rfl
  · rw [Function.update_noteq h4, if_neg (by tauto)]

/-- In the low 6 MiB the three upper indices collapse to the PD index. -/
theorem pdAt_setPD_low (s : VSpace) (va va' : Nat) (pde : PDE)
    (h : va < 0x600000) (h' : va' < 0x600000) :
    pdAt (setPD s va pde) va' =
      if pd_idx va' = pd_idx va then pde else pdAt s va' := by
  rw [pdAt_setPD]
  have h1 : pml4_idx va' = pml4_idx va := by
    unfold pml4_idx; omega
  have h2 : pdpt_idx va' = pdpt_idx va := by
    unfold pdpt_idx; omega
  by_cases h3 : pd_idx va' = pd_idx va
  · rw [if_pos ⟨h1, h2, h3⟩, if_pos h3]
  · rw [if_neg (by tauto), if_neg h3]

/-- Walking any low address goes through the PD entry of its slot base. -/
theorem pdAt_eq_slot (s : VSpace) (va : Nat) (h : va < 0x600000) :
    pdAt s va = pdAt s (slotBase (pd_idx va)) := by
  unfold pdAt
  have h4 : pml4_idx (slotBase (pd_idx va)) = pml4_idx va := by
    unfold pml4_idx slotBase pd_idx LARGE_PAGE_SIZE; omega
  have h3 : pdpt_idx (slotBase (pd_idx va)) = pdpt_idx va := by
    unfold pdpt_idx slotBase pd_idx LARGE_PAGE_SIZE; omega
  have h2 : pd_idx (slotBase (pd_idx va)) = pd_idx va := by
    unfold slotBase pd_idx LARGE_PAGE_SIZE; omega
  rw [h4, h3, h2]

/-- For a low address the PD index is plain division by 2 MiB. -/
theorem pd_idx_low (va : Nat) (h : va < 0x600000) :
    pd_idx va = va / LARGE_PAGE_SIZE := by
  unfold pd_idx LARGE_PAGE_SIZE; omega

/-- A page-aligned low address decomposes into its slot base and PT index. -/
theorem va_decomp (va : Nat) (h4 : va % BASE_PAGE_SIZE = 0) (h6 : va < 0x600000) :
    va = slotBase (va / LARGE_PAGE_SIZE) + pt_idx va * BASE_PAGE_SIZE ∧
      va / LARGE_PAGE_SIZE < 3 ∧ pt_idx va < 512 := by
  unfold slotBase pt_idx BASE_PAGE_SIZE LARGE_PAGE_SIZE at *
  omega

/-- Adding an entry of another slot preserves a slot relation. -/
theorem SlotRel_cons_other (L : ModelAddressSpace) (i2 : Nat) (pde : PDE)
    (e0 : ModelEntry) (hrel : SlotRel L i2 pde) (hns : ¬ inSlot e0 i2) :
    SlotRel (e0 :: L) i2 pde := by
  cases pde with
  | empty =>
      intro e he
      rcases List.mem_cons.1 he with rfl | he
      · exact fun hc => hns hc
      · exact hrel e he
  | large p r =>
      refine ⟨List.mem_cons_of_mem _ hrel.1, ?_⟩
      intro e he hes
      rcases List.mem_cons.1 he with rfl | he
      · exact absurd hes hns
      · exact hrel.2 e he hes
  | table pt =>
      refine ⟨?_, ?_⟩
      · intro i1 p r hi hpt
        exact List.mem_cons_of_mem _ (hrel.1 i1 p r hi hpt)
      · intro e he hes
        rcases List.mem_cons.1 he with rfl | he
        · exact absurd hes hns
        · exact hrel.2 e he hes

/-- Removing entries of another slot's key preserves a slot relation, as
does any filter that keeps every entry of this slot. -/
theorem SlotRel_filter_other (L : ModelAddressSpace) (i2 : Nat) (pde : PDE)
    (p : ModelEntry → Bool) (hrel : SlotRel L i2 pde)
    (hkeep : ∀ e ∈ L, inSlot e i2 → p e = true) :
    SlotRel (L.filter p) i2 pde := by
  cases pde with
  | empty =>
      intro e he
      exact hrel e (List.mem_of_mem_filter he)
  | large p0 r =>
      refine ⟨List.mem_filter.2 ⟨hrel.1, ?_⟩, ?_⟩
      · refine hkeep _ hrel.1 ?_
        unfold inSlot slotBase
        simp [Nat.mul_div_cancel]
        unfold LARGE_PAGE_SIZE
        omega
      · intro e he hes
        exact hrel.2 e (List.mem_of_mem_filter he) hes
  | table pt =>
      refine ⟨?_, ?_⟩
      · intro i1 pp r hi hpt
        refine List.mem_filter.2 ⟨hrel.1 i1 pp r hi hpt, ?_⟩
        refine hkeep _ (hrel.1 i1 pp r hi hpt) ?_
        unfold inSlot slotBase
        unfold BASE_PAGE_SIZE LARGE_PAGE_SIZE
        simp only []
        omega
      · intro e he hes
        exact hrel.2 e (List.mem_of_mem_filter he) hes

/-- Only entries of slot `va / 2 MiB` can contain a page-aligned `va`. -/
theorem contains_imp_inSlot (e : ModelEntry) (va : Nat) (hwf : EntryWf e)
    (hva : va % BASE_PAGE_SIZE = 0)
    (hc : entryContains e va = true) : inSlot e (va / LARGE_PAGE_SIZE) := by
  obtain ⟨hlen, hal, _⟩ := hwf
  simp only [entryContains, Bool.and_eq_true, decide_eq_true_eq] at hc
  unfold inSlot
  unfold BASE_PAGE_SIZE at hva
  unfold BASE_PAGE_SIZE LARGE_PAGE_SIZE at hlen
  unfold LARGE_PAGE_SIZE
  rcases hlen with h | h <;> rw [h] at hal hc <;> omega

/-- A base-page entry containing a page-aligned address starts at it. -/
theorem contains_base_eq (e : ModelEntry) (va : Nat) (hwf : EntryWf e)
    (hva : va % BASE_PAGE_SIZE = 0) (hlen : e.len = BASE_PAGE_SIZE)
    (hc : entryContains e va = true) : e.va = va := by
  obtain ⟨_, hal, _⟩ := hwf
  simp only [entryContains, Bool.and_eq_true, decide_eq_true_eq] at hc
  rw [hlen] at hal hc
  unfold BASE_PAGE_SIZE at hva hal hc
  omega

/-- An entry overlapping a well-formed aligned range lies in its slot. -/
theorem overlaps_imp_inSlot (e : ModelEntry) (va sz : Nat) (hwf : EntryWf e)
    (hsz : sz = BASE_PAGE_SIZE ∨ sz = LARGE_PAGE_SIZE)
    (hva : va % sz = 0) (hva4 : va % BASE_PAGE_SIZE = 0)
    (ho : overlaps va sz e.va e.len = true) :
    inSlot e (va / LARGE_PAGE_SIZE) := by
  obtain ⟨hlen, hal, _⟩ := hwf
  simp only [overlaps, Bool.and_eq_true, decide_eq_true_eq] at ho
  unfold inSlot
  unfold BASE_PAGE_SIZE at hva4
  unfold BASE_PAGE_SIZE LARGE_PAGE_SIZE at hsz hlen
  unfold LARGE_PAGE_SIZE
  rcases hsz with hs | hs <;> rw [hs] at hva ho <;>
    rcases hlen with h | h <;> rw [h] at hal ho <;> omega

/-- In one slot, page-aligned addresses are determined by their PT index. -/
theorem pt_idx_inj (va va' : Nat) (h : va % BASE_PAGE_SIZE = 0)
    (h' : va' % BASE_PAGE_SIZE = 0)
    (hs : va / LARGE_PAGE_SIZE = va' / LARGE_PAGE_SIZE)
    (hp : pt_idx va = pt_idx va') : va = va' := by
  unfold pt_idx at hp
  unfold BASE_PAGE_SIZE at h h'
  unfold LARGE_PAGE_SIZE at hs
  omega

/-- PT indices are below 512. -/
theorem pt_idx_lt (va : Nat) : pt_idx va < 512 := by
  unfold pt_idx; omega

/-- The base-page address of slot `i2`, PT index `i1`, lies in slot `i2`. -/
theorem base_addr_inSlot (i2 i1 p len : Nat) (r : Rights) (h : i1 < 512) :
    inSlot (ModelEntry.mk (slotBase i2 + i1 * BASE_PAGE_SIZE) p len r) i2 := by
  show (slotBase i2 + i1 * BASE_PAGE_SIZE) / LARGE_PAGE_SIZE = i2
  unfold slotBase BASE_PAGE_SIZE LARGE_PAGE_SIZE
  omega

/-- The slot base lies in its slot. -/
theorem slotBase_self_inSlot (i2 p len : Nat) (r : Rights) :
    inSlot (ModelEntry.mk (slotBase i2) p len r) i2 := by
  show slotBase i2 / LARGE_PAGE_SIZE = i2
  unfold slotBase LARGE_PAGE_SIZE
  omega

/-- The PD index of a slot base is the slot number. -/
theorem pd_idx_slotBase (j : Nat) (hj : j < 3) : pd_idx (slotBase j) = j := by
  unfold pd_idx slotBase LARGE_PAGE_SIZE
  omega

/-- Slot bases of the test domain are below 6 MiB. -/
theorem slotBase_lt (j : Nat) (hj : j < 3) : slotBase j < 0x600000 := by
  unfold slotBase LARGE_PAGE_SIZE
  omega

/-- A slot relation only depends on membership of that slot's entries. -/
theorem SlotRel_congr (L L' : ModelAddressSpace) (i2 : Nat) (pde : PDE)
    (hmem : ∀ e, inSlot e i2 → (e ∈ L ↔ e ∈ L')) (hrel : SlotRel L i2 pde) :
    SlotRel L' i2 pde := by
  cases pde with
  | empty =>
      intro e he hs
      exact hrel e ((hmem e hs).2 he) hs
  | large p r =>
      refine ⟨(hmem _ (slotBase_self_inSlot i2 p LARGE_PAGE_SIZE r)).1 hrel.1, ?_⟩
      intro e he hs
      exact hrel.2 e ((hmem e hs).2 he) hs
  | table pt =>
      refine ⟨?_, ?_⟩
      · intro i1 p r hi hpt
        exact (hmem _ (base_addr_inSlot i2 i1 p BASE_PAGE_SIZE r hi)).1
          (hrel.1 i1 p r hi hpt)
      · intro e he hs
        exact hrel.2 e ((hmem e hs).2 he) hs

/-- `Rel` after a `setPD` at `va`: the touched slot gets its new relation,
the untouched slots keep theirs when their entries' membership is
unchanged. -/
theorem Rel_update (L L' : ModelAddressSpace) (s : VSpace) (va : Nat) (pde : PDE)
    (hlt : va < 0x600000) (hrel : Rel L s)
    (hmem : ∀ j, j < 3 → j ≠ va / LARGE_PAGE_SIZE →
      ∀ e, inSlot e j → (e ∈ L ↔ e ∈ L'))
    (hnew : SlotRel L' (va / LARGE_PAGE_SIZE) pde) :
    Rel L' (setPD s va pde) := by
  intro j hj
  have hjlt : slotBase j < 0x600000 := slotBase_lt j hj
  rw [pdAt_setPD_low s va (slotBase j) pde hlt hjlt, pd_idx_slotBase j hj,
    pd_idx_low va hlt]
  by_cases hij : j = va / LARGE_PAGE_SIZE
  · rw [if_pos hij, hij]
    exact hnew
  · rw [if_neg hij]
    exact SlotRel_congr L L' j _ (hmem j hj hij) (hrel j hj)

/-- Consing a well-formed entry preserves the invariant. -/
theorem Inv_cons (e : ModelEntry) (L : ModelAddressSpace)
    (hwf : EntryWf e) (hinv : Inv L) : Inv (e :: L) := by
  intro x hx
  rcases List.mem_cons.1 hx with rfl | hx
  · exact hwf
  · exact hinv x hx

/-- Filtering preserves the invariant. -/
theorem Inv_filter (L : ModelAddressSpace) (p : ModelEntry → Bool)
    (hinv : Inv L) : Inv (L.filter p) := by
  intro x hx
  exact hinv x (List.mem_of_mem_filter hx)

/-- The rights rewrite of the model `adjust` preserves the invariant. -/
theorem Inv_adjustMap (L : ModelAddressSpace) (k : Nat) (r : Rights)
    (hinv : Inv L) :
    Inv (L.map (fun e2 => if e2.va == k then
      ModelEntry.mk e2.va e2.pbase e2.len r else e2)) := by
  intro x hx
  obtain ⟨e1, he1, hfe⟩ := List.mem_map.1 hx
  obtain ⟨h1, h2, h3⟩ := hinv e1 he1
  by_cases hk : e1.va = k
  · rw [← hfe]
    simp only [beq_iff_eq, if_pos hk]
    exact ⟨h1, h2, h3⟩
  · rw [← hfe]
    simp only [beq_iff_eq, if_neg hk]
    exact ⟨h1, h2, h3⟩

/-- If a unique element satisfies the predicate, `find?` returns it. -/
theorem find_unique {α : Type} (l : List α) (p : α → Bool) (a : α)
    (ha : a ∈ l) (hpa : p a = true) (huniq : ∀ x ∈ l, p x = true → x = a) :
    l.find? p = some a := by
  cases hf : l.find? p with
  | none => exact absurd hpa (by simpa using List.find?_eq_none.1 hf a ha)
  | some b => rw [huniq b (List.mem_of_find?_eq_some hf) (List.find?_some hf)]

/-- The large entry of slot `va / 2 MiB` contains `va`. -/
theorem large_contains (va p : Nat) (r : Rights) :
    entryContains
      (ModelEntry.mk (slotBase (va / LARGE_PAGE_SIZE)) p LARGE_PAGE_SIZE r)
      va = true := by
  simp only [entryContains, Bool.and_eq_true, decide_eq_true_eq]
  unfold slotBase LARGE_PAGE_SIZE
  refine ⟨?_, ?_⟩ <;> omega

/-- With an empty slot, the model finds no entry containing `va`. -/
theorem find_contains_of_empty (L : ModelAddressSpace) (va : Nat)
    (hinv : Inv L) (hva : va % BASE_PAGE_SIZE = 0)
    (hsl : SlotRel L (va / LARGE_PAGE_SIZE) PDE.empty) :
    L.find? (fun e => entryContains e va) = none := by
  rw [List.find?_eq_none]
  intro e he hc
  exact hsl e he (contains_imp_inSlot e va (hinv e he) hva hc)

/-- With a large leaf in the slot, the model finds exactly the (unique)
large entry. -/
theorem find_contains_of_large (L : ModelAddressSpace) (va p : Nat) (r : Rights)
    (hinv : Inv L) (hva : va % BASE_PAGE_SIZE = 0)
    (hsl : SlotRel L (va / LARGE_PAGE_SIZE) (PDE.large p r)) :
    L.find? (fun e => entryContains e va) =
      some (ModelEntry.mk (slotBase (va / LARGE_PAGE_SIZE)) p
        LARGE_PAGE_SIZE r) := by
  obtain ⟨hmem, huniq⟩ := hsl
  refine find_unique _ _ _ hmem (large_contains va p r) ?_
  intro x hx hpx
  exact huniq x hx (contains_imp_inSlot x va (hinv x hx) hva hpx)

/-- With a PT leaf at `va`, the model finds exactly the base entry. -/
theorem find_contains_of_pt_some (L : ModelAddressSpace) (va p : Nat)
    (r : Rights) (pt : PT)
    (hinv : Inv L) (hva : va % BASE_PAGE_SIZE = 0) (hlt : va < 0x600000)
    (hsl : SlotRel L (va / LARGE_PAGE_SIZE) (PDE.table pt))
    (hpt : pt (pt_idx va) = some (p, r)) :
    L.find? (fun e => entryContains e va) =
      some (ModelEntry.mk va p BASE_PAGE_SIZE r) := by
  obtain ⟨hfwd, hbwd⟩ := hsl
  have hdec := va_decomp va hva hlt
  have hmem : ModelEntry.mk va p BASE_PAGE_SIZE r ∈ L := by
    have h := hfwd (pt_idx va) p r hdec.2.2 hpt
    rw [← hdec.1] at h
    exact h
  refine find_unique _ _ _ hmem ?_ ?_
  · simp only [entryContains, Bool.and_eq_true, decide_eq_true_eq]
    unfold BASE_PAGE_SIZE
    exact ⟨Nat.le_refl va, by omega⟩
  · intro x hx hpx
    obtain ⟨hlen0, hpt0⟩ :=
      hbwd x hx (contains_imp_inSlot x va (hinv x hx) hva hpx)
    have hxva : x.va = va := contains_base_eq x va (hinv x hx) hva hlen0 hpx
    rw [hxva, hpt] at hpt0
    obtain ⟨xva, xp, xl, xr⟩ := x
    simp only [Option.some.injEq, Prod.mk.injEq] at hpt0
    simp only at hxva hlen0
    rw [hxva, hlen0, ← hpt0.1, ← hpt0.2]

/-- With no PT leaf at `va` in a table slot, the model finds nothing. -/
theorem find_contains_of_pt_none (L : ModelAddressSpace) (va : Nat) (pt : PT)
    (hinv : Inv L) (hva : va % BASE_PAGE_SIZE = 0)
    (hsl : SlotRel L (va / LARGE_PAGE_SIZE) (PDE.table pt))
    (hpt : pt (pt_idx va) = none) :
    L.find? (fun e => entryContains e va) = none := by
  rw [List.find?_eq_none]
  intro e he hc
  obtain ⟨hlen0, hpt0⟩ :=
    hsl.2 e he (contains_imp_inSlot e va (hinv e he) hva hc)
  have heva : e.va = va := contains_base_eq e va (hinv e he) hva hlen0 hc
  rw [heva, hpt] at hpt0
  simp at hpt0

/-- With an empty slot, the model holds no entry keyed `va`. -/
theorem find_key_of_empty (L : ModelAddressSpace) (va : Nat)
    (hsl : SlotRel L (va / LARGE_PAGE_SIZE) PDE.empty) :
    L.find? (fun e => e.va == va) = none := by
  rw [List.find?_eq_none]
  intro e he hk
  have hke : e.va = va := by simpa using hk
  refine hsl e he ?_
  unfold inSlot
  rw [hke]

/-- With a large leaf whose slot base is `va`, the model finds exactly the
large entry under the exact-key predicate. -/
theorem find_key_of_large (L : ModelAddressSpace) (va p : Nat) (r : Rights)
    (hsl : SlotRel L (va / LARGE_PAGE_SIZE) (PDE.large p r))
    (hbase : slotBase (va / LARGE_PAGE_SIZE) = va) :
    L.find? (fun e => e.va == va) =
      some (ModelEntry.mk (slotBase (va / LARGE_PAGE_SIZE)) p
        LARGE_PAGE_SIZE r) := by
  obtain ⟨hmem, huniq⟩ := hsl
  refine find_unique _ _ _ hmem (by simpa using hbase) ?_
  intro x hx hpx
  have hke : x.va = va := by simpa using hpx
  refine huniq x hx ?_
  unfold inSlot
  rw [hke]

/-- With a PT leaf at `va`, the model finds exactly the base entry under
the exact-key predicate. -/
theorem find_key_of_pt_some (L : ModelAddressSpace) (va p : Nat)
    (r : Rights) (pt : PT)
    (hva : va % BASE_PAGE_SIZE = 0) (hlt : va < 0x600000)
    (hsl : SlotRel L (va / LARGE_PAGE_SIZE) (PDE.table pt))
    (hpt : pt (pt_idx va) = some (p, r)) :
    L.find? (fun e => e.va == va) =
      some (ModelEntry.mk va p BASE_PAGE_SIZE r) := by
  obtain ⟨hfwd, hbwd⟩ := hsl
  have hdec := va_decomp va hva hlt
  have hmem : ModelEntry.mk va p BASE_PAGE_SIZE r ∈ L := by
    have h := hfwd (pt_idx va) p r hdec.2.2 hpt
    rw [← hdec.1] at h
    exact h
  refine find_unique _ _ _ hmem (by simp) ?_
  intro x hx hpx
  have hke : x.va = va := by simpa using hpx
  have hxs : inSlot x (va / LARGE_PAGE_SIZE) := by
    unfold inSlot
    rw [hke]
  obtain ⟨hlen0, hpt0⟩ := hbwd x hx hxs
  rw [hke, hpt] at hpt0
  obtain ⟨xva, xp, xl, xr⟩ := x
  simp only [Option.some.injEq, Prod.mk.injEq] at hpt0
  simp only at hke hlen0
  rw [hke, hlen0, ← hpt0.1, ← hpt0.2]

/-- With no PT leaf at `va` in a table slot, the model holds no entry keyed
`va`. -/
theorem find_key_of_pt_none (L : ModelAddressSpace) (va : Nat) (pt : PT)
    (hsl : SlotRel L (va / LARGE_PAGE_SIZE) (PDE.table pt))
    (hpt : pt (pt_idx va) = none) :
    L.find? (fun e => e.va == va) = none := by
  rw [List.find?_eq_none]
  intro e he hk
  have hke : e.va = va := by simpa using hk
  have hes : inSlot e (va / LARGE_PAGE_SIZE) := by
    unfold inSlot
    rw [hke]
  obtain ⟨_, hpt0⟩ := hsl.2 e he hes
  rw [hke, hpt] at hpt0
  simp at hpt0

/-- The rights rewrite keyed in another slot leaves a slot's membership
unchanged. -/
theorem mem_adjust_other (L : ModelAddressSpace) (k : Nat) (r : Rights)
    (j : Nat) (hk : j ≠ k / LARGE_PAGE_SIZE) :
    ∀ e, inSlot e j → (e ∈ L ↔ e ∈ L.map (fun e2 => if e2.va == k then
      ModelEntry.mk e2.va e2.pbase e2.len r else e2)) := by
  intro e hs
  have hne : e.va ≠ k := by
    intro h
    refine hk ?_
    rw [← hs]
    rw [h]
  constructor
  · intro he
    refine List.mem_map.2 ⟨e, he, ?_⟩
    simp only [beq_iff_eq, if_neg hne]
  · intro he
    obtain ⟨e1, he1, hfe⟩ := List.mem_map.1 he
    by_cases h1 : e1.va = k
    · exfalso
      refine hne ?_
      rw [← hfe]
      simp only [beq_iff_eq, if_pos h1]
      exact h1
    · rw [← hfe]
      simp only [beq_iff_eq, if_neg h1]
      exact he1

/-- The exact-key filter keyed in another slot leaves a slot's membership
unchanged. -/
theorem mem_filter_key_other (L : ModelAddressSpace) (va j : Nat)
    (hk : j ≠ va / LARGE_PAGE_SIZE) :
    ∀ e, inSlot e j →
      (e ∈ L ↔ e ∈ L.filter (fun e2 => e2.va != va)) := by
  intro e hs
  have hne : e.va ≠ va := by
    intro h
    refine hk ?_
    rw [← hs]
    rw [h]
  constructor
  · intro he
    exact List.mem_filter.2 ⟨he, by simpa using hne⟩
  · intro he
    exact List.mem_of_mem_filter he

/-- Consing an entry of another slot leaves a slot's membership
unchanged. -/
theorem mem_cons_other (L : ModelAddressSpace) (e0 : ModelEntry) (j : Nat)
    (hns : ¬ inSlot e0 j) :
    ∀ e, inSlot e j → (e ∈ L ↔ e ∈ e0 :: L) := by
  intro e hs
  constructor
  · exact List.mem_cons_of_mem _
  · intro he
    rcases List.mem_cons.1 he with rfl | h
    · exact absurd hs hns
    · exact h

/-- One `Resolve` returns the same result on both sides and changes
neither state. -/
theorem step_resolve_match (L : ModelAddressSpace) (s : VSpace) (va : Nat)
    (hinv : Inv L) (hrel : Rel L s)
    (hva : va % BASE_PAGE_SIZE = 0) (hlt : va < 0x600000) :
    (VSpace.resolve s va).1 = (model_resolve L va).1 ∧
      (VSpace.resolve s va).2 = s ∧ (model_resolve L va).2 = L := by
  have hi2 : va / LARGE_PAGE_SIZE < 3 := by
    unfold LARGE_PAGE_SIZE
    omega
  have hps : pdAt s va = pdAt s (slotBase (va / LARGE_PAGE_SIZE)) := by
    rw [pdAt_eq_slot s va hlt, pd_idx_low va hlt]
  have hsl : SlotRel L (va / LARGE_PAGE_SIZE) (pdAt s va) := by
    rw [hps]
    exact hrel _ hi2
  unfold VSpace.resolve model_resolve
  cases hpde : pdAt s va with
  | empty =>
      rw [hpde] at hsl
      rw [find_contains_of_empty L va hinv hva hsl]
      exact ⟨rfl, rfl, rfl⟩
  | large p r =>
      rw [hpde] at hsl
      rw [find_contains_of_large L va p r hinv hva hsl]
      refine ⟨?_, rfl, rfl⟩
      dsimp only
      have hmod : va % LARGE_PAGE_SIZE =
          va - slotBase (va / LARGE_PAGE_SIZE) := by
        unfold slotBase LARGE_PAGE_SIZE
        omega
      rw [hmod]
  | table pt =>
      rw [hpde] at hsl
      dsimp only
      cases hpt : pt (pt_idx va) with
      | none =>
          rw [find_contains_of_pt_none L va pt hinv hva hsl hpt]
          exact ⟨rfl, rfl, rfl⟩
      | some pr =>
          obtain ⟨p, r⟩ := pr
          rw [find_contains_of_pt_some L va p r pt hinv hva hlt hsl hpt]
          refine ⟨?_, rfl, rfl⟩
          dsimp only
          have hmod : va % BASE_PAGE_SIZE = va - va := by
            unfold BASE_PAGE_SIZE at hva ⊢
            omega
          rw [hmod]

/-- A slot base divides back to its slot number. -/
theorem slotBase_div (i2 : Nat) : slotBase i2 / LARGE_PAGE_SIZE = i2 := by
  unfold slotBase LARGE_PAGE_SIZE
  omega

/-- One `Adjust` returns the same result on both sides and preserves the
refinement invariants. -/
theorem step_adjust_match (L : ModelAddressSpace) (s : VSpace) (va : Nat)
    (r : Rights) (hinv : Inv L) (hrel : Rel L s)
    (hva : va % BASE_PAGE_SIZE = 0) (hlt : va < 0x600000) :
    (VSpace.adjust s va r).1 = (model_adjust L va r).1 ∧
      Inv (model_adjust L va r).2 ∧
      Rel (model_adjust L va r).2 (VSpace.adjust s va r).2 := by
  have hi2 : va / LARGE_PAGE_SIZE < 3 := by
    unfold LARGE_PAGE_SIZE
    omega
  have hps : pdAt s va = pdAt s (slotBase (va / LARGE_PAGE_SIZE)) := by
    rw [pdAt_eq_slot s va hlt, pd_idx_low va hlt]
  have hsl : SlotRel L (va / LARGE_PAGE_SIZE) (pdAt s va) := by
    rw [hps]
    exact hrel _ hi2
  unfold VSpace.adjust model_adjust
  cases hpde : pdAt s va with
  | empty =>
      rw [hpde] at hsl
      rw [find_contains_of_empty L va hinv hva hsl]
      exact ⟨rfl, hinv, hrel⟩
  | large p rold =>
      rw [hpde] at hsl
      rw [find_contains_of_large L va p rold hinv hva hsl]
      dsimp only
      refine ⟨rfl, Inv_adjustMap L (slotBase (va / LARGE_PAGE_SIZE)) r hinv, ?_⟩
      refine Rel_update L _ s va (PDE.large p r) hlt hrel ?_ ?_
      · intro j hj hij
        refine mem_adjust_other L (slotBase (va / LARGE_PAGE_SIZE)) r j ?_
        rw [slotBase_div]
        exact hij
      · obtain ⟨hmem0, huniq0⟩ := hsl
        constructor
        · refine List.mem_map.2 ⟨ModelEntry.mk (slotBase (va / LARGE_PAGE_SIZE))
            p LARGE_PAGE_SIZE rold, hmem0, ?_⟩
          simp
        · intro e he hs2
          obtain ⟨e1, he1, hfe⟩ := List.mem_map.1 he
          have hva1 : e1.va = e.va := by
            rw [← hfe]
            by_cases h1 : e1.va = slotBase (va / LARGE_PAGE_SIZE)
            · simp only [beq_iff_eq, if_pos h1]
            · simp only [beq_iff_eq, if_neg h1]
          have hs1 : inSlot e1 (va / LARGE_PAGE_SIZE) := by
            show e1.va / LARGE_PAGE_SIZE = va / LARGE_PAGE_SIZE
            rw [hva1]
            exact hs2
          have he1eq := huniq0 e1 he1 hs1
          rw [← hfe, he1eq]
          simp
  | table pt =>
      rw [hpde] at hsl
      dsimp only
      cases hpt : pt (pt_idx va) with
      | none =>
          rw [find_contains_of_pt_none L va pt hinv hva hsl hpt]
          exact ⟨rfl, hinv, hrel⟩
      | some pr =>
          obtain ⟨p, rold⟩ := pr
          rw [find_contains_of_pt_some L va p rold pt hinv hva hlt hsl hpt]
          dsimp only
          refine ⟨rfl, Inv_adjustMap L va r hinv, ?_⟩
          refine Rel_update L _ s va
            (PDE.table (Function.update pt (pt_idx va) (some (p, r))))
            hlt hrel ?_ ?_
          · intro j hj hij
            exact mem_adjust_other L va r j hij
          · obtain ⟨hfwd, hbwd⟩ := hsl
            have hdec := va_decomp va hva hlt
            constructor
            · intro i1 p' r' hi hpt'
              by_cases h1 : i1 = pt_idx va
              · subst h1
                rw [Function.update_same] at hpt'
                simp only [Option.some.injEq, Prod.mk.injEq] at hpt'
                have hmem1 : ModelEntry.mk va p BASE_PAGE_SIZE rold ∈ L := by
                  have h := hfwd (pt_idx va) p rold hdec.2.2 hpt
                  rw [← hdec.1] at h
                  exact h
                rw [← hdec.1]
                refine List.mem_map.2 ⟨ModelEntry.mk va p BASE_PAGE_SIZE rold,
                  hmem1, ?_⟩
                simp only [beq_iff_eq, if_true]
                rw [hpt'.1, hpt'.2]
              · rw [Function.update_noteq h1] at hpt'
                have hm := hfwd i1 p' r' hi hpt'
                refine List.mem_map.2 ⟨_, hm, ?_⟩
                have hne : slotBase (va / LARGE_PAGE_SIZE) +
                    i1 * BASE_PAGE_SIZE ≠ va := by
                  intro hcontra
                  refine h1 ?_
                  unfold slotBase BASE_PAGE_SIZE LARGE_PAGE_SIZE at hcontra
                  unfold pt_idx
                  unfold BASE_PAGE_SIZE at hva
                  omega
                simp only [beq_iff_eq]
                rw [if_neg hne]
            · intro e he hs2
              obtain ⟨e1, he1, hfe⟩ := List.mem_map.1 he
              have hva1 : e1.va = e.va := by
                rw [← hfe]
                by_cases h1 : e1.va = va
                · simp only [beq_iff_eq, if_pos h1]
                · simp only [beq_iff_eq, if_neg h1]
              have hs1 : inSlot e1 (va / LARGE_PAGE_SIZE) := by
                show e1.va / LARGE_PAGE_SIZE = va / LARGE_PAGE_SIZE
                rw [hva1]
                exact hs2
              obtain ⟨hlen1, hpt1⟩ := hbwd e1 he1 hs1
              by_cases h1 : e1.va = va
              · rw [h1, hpt] at hpt1
                simp only [Option.some.injEq, Prod.mk.injEq] at hpt1
                have heva : e.va = va := by
                  rw [← hva1, h1]
                constructor
                · rw [← hfe]
                  simp only [beq_iff_eq, if_pos h1]
                  exact hlen1
                · rw [heva, Function.update_same, ← hfe]
                  simp only [beq_iff_eq, if_pos h1]
                  rw [← hpt1.1]
              · have hfee : e1 = e := by
                  rw [← hfe]
                  simp only [beq_iff_eq, if_neg h1]
                have hne2 : pt_idx e1.va ≠ pt_idx va := by
                  intro hcontra
                  obtain ⟨_, hal1, _⟩ := hinv e1 he1
                  rw [hlen1] at hal1
                  exact h1 (pt_idx_inj e1.va va hal1 hva hs1 hcontra)
                rw [← hfee, Function.update_noteq hne2]
                exact ⟨hlen1, hpt1⟩

/-- One safe `Unmap` returns the same result on both sides and preserves
the refinement invariants. -/
theorem step_unmap_match (L : ModelAddressSpace) (s : VSpace) (va : Nat)
    (hinv : Inv L) (hrel : Rel L s)
    (hsafe : ∀ e ∈ L, entryContains e va = true → e.va = va)
    (hva : va % BASE_PAGE_SIZE = 0) (hlt : va < 0x600000) :
    (VSpace.unmap s va).1 = (model_unmap L va).1 ∧
      Inv (model_unmap L va).2 ∧
      Rel (model_unmap L va).2 (VSpace.unmap s va).2 := by
  have hi2 : va / LARGE_PAGE_SIZE < 3 := by
    unfold LARGE_PAGE_SIZE
    omega
  have hps : pdAt s va = pdAt s (slotBase (va / LARGE_PAGE_SIZE)) := by
    rw [pdAt_eq_slot s va hlt, pd_idx_low va hlt]
  have hsl : SlotRel L (va / LARGE_PAGE_SIZE) (pdAt s va) := by
    rw [hps]
    exact hrel _ hi2
  unfold VSpace.unmap model_unmap
  cases hpde : pdAt s va with
  | empty =>
      rw [hpde] at hsl
      rw [find_key_of_empty L va hsl]
      exact ⟨rfl, hinv, hrel⟩
  | large p rold =>
      rw [hpde] at hsl
      have hbase : slotBase (va / LARGE_PAGE_SIZE) = va :=
        hsafe _ hsl.1 (large_contains va p rold)
      rw [find_key_of_large L va p rold hsl hbase]
      dsimp only
      refine ⟨?_, Inv_filter L _ hinv, ?_⟩
      · have h0 : va - va % LARGE_PAGE_SIZE = va := by
          unfold slotBase at hbase
          unfold LARGE_PAGE_SIZE at hbase ⊢
          omega
        rw [h0]
      · refine Rel_update L _ s va PDE.empty hlt hrel ?_ ?_
        · intro j hj hij
          exact mem_filter_key_other L va j hij
        · intro e he hs2
          have heL := List.mem_of_mem_filter he
          have hne : e.va ≠ va := by
            simpa using (List.mem_filter.1 he).2
          have heq := hsl.2 e heL hs2
          refine hne ?_
          rw [heq]
          exact hbase
  | table pt =>
      rw [hpde] at hsl
      dsimp only
      cases hpt : pt (pt_idx va) with
      | none =>
          rw [find_key_of_pt_none L va pt hsl hpt]
          exact ⟨rfl, hinv, hrel⟩
      | some pr =>
          obtain ⟨p, rold⟩ := pr
          rw [find_key_of_pt_some L va p rold pt hva hlt hsl hpt]
          dsimp only
          refine ⟨?_, Inv_filter L _ hinv, ?_⟩
          · have h0 : va - va % BASE_PAGE_SIZE = va := by
              unfold BASE_PAGE_SIZE at hva ⊢
              omega
            rw [h0]
          · refine Rel_update L _ s va
              (PDE.table (Function.update pt (pt_idx va) none)) hlt hrel ?_ ?_
            · intro j hj hij
              exact mem_filter_key_other L va j hij
            · obtain ⟨hfwd, hbwd⟩ := hsl
              constructor
              · intro i1 p' r' hi hpt'
                by_cases h1 : i1 = pt_idx va
                · subst h1
                  rw [Function.update_same] at hpt'
                  simp at hpt'
                · rw [Function.update_noteq h1] at hpt'
                  have hm := hfwd i1 p' r' hi hpt'
                  refine List.mem_filter.2 ⟨hm, ?_⟩
                  have hne : slotBase (va / LARGE_PAGE_SIZE) +
                      i1 * BASE_PAGE_SIZE ≠ va := by
                    intro hcontra
                    refine h1 ?_
                    unfold slotBase BASE_PAGE_SIZE LARGE_PAGE_SIZE at hcontra
                    unfold pt_idx
                    unfold BASE_PAGE_SIZE at hva
                    omega
                  simpa using hne
              · intro e he hs2
                have heL := List.mem_of_mem_filter he
                have hne : e.va ≠ va := by
                  simpa using (List.mem_filter.1 he).2
                obtain ⟨hlen1, hpt1⟩ := hbwd e heL hs2
                refine ⟨hlen1, ?_⟩
                have hne2 : pt_idx e.va ≠ pt_idx va := by
                  intro hcontra
                  obtain ⟨_, hal1, _⟩ := hinv e heL
                  rw [hlen1] at hal1
                  exact hne (pt_idx_inj e.va va hal1 hva hs2 hcontra)
                rw [Function.update_noteq hne2]
                exact hpt1

/-- If some element satisfies the predicate, `find?` returns one. -/
theorem find_exists {α : Type} (l : List α) (p : α → Bool) (a : α)
    (ha : a ∈ l) (hpa : p a = true) : ∃ b, l.find? p = some b := by
  cases hf : l.find? p with
  | none => exact absurd hpa (by simpa using List.find?_eq_none.1 hf a ha)
  | some b => exact ⟨b, rfl⟩

/-- A 2-MiB-aligned address is its own slot base. -/
theorem slotBase_of_aligned (va : Nat) (h : va % LARGE_PAGE_SIZE = 0) :
    slotBase (va / LARGE_PAGE_SIZE) = va := by
  unfold LARGE_PAGE_SIZE at h
  unfold slotBase LARGE_PAGE_SIZE
  omega

/-- Any nonempty range starting in a slot overlaps that slot's large
mapping. -/
theorem overlaps_large_entry (va sz : Nat) (hsz : 0 < sz) :
    overlaps va sz (slotBase (va / LARGE_PAGE_SIZE)) LARGE_PAGE_SIZE
      = true := by
  simp only [overlaps, Bool.and_eq_true, decide_eq_true_eq]
  unfold slotBase LARGE_PAGE_SIZE
  refine ⟨?_, ?_⟩ <;> omega

/-- A 2-MiB range at a slot base overlaps every base page of its slot. -/
theorem overlaps_slot_base_page (va i1 : Nat) (hi : i1 < 512)
    (hbase : slotBase (va / LARGE_PAGE_SIZE) = va) :
    overlaps va LARGE_PAGE_SIZE
      (slotBase (va / LARGE_PAGE_SIZE) + i1 * BASE_PAGE_SIZE)
      BASE_PAGE_SIZE = true := by
  simp only [overlaps, Bool.and_eq_true, decide_eq_true_eq]
  unfold slotBase at hbase ⊢
  unfold BASE_PAGE_SIZE LARGE_PAGE_SIZE at *
  refine ⟨?_, ?_⟩ <;> omega

/-- A nonempty range overlaps itself. -/
theorem overlaps_self (va sz : Nat) (hsz : 0 < sz) :
    overlaps va sz va sz = true := by
  simp only [overlaps, Bool.and_eq_true, decide_eq_true_eq]
  refine ⟨?_, ?_⟩ <;> omega

/-- Two overlapping aligned base pages coincide. -/
theorem overlaps_base_eq (va eva : Nat) (hva : va % BASE_PAGE_SIZE = 0)
    (hal : eva % BASE_PAGE_SIZE = 0)
    (ho : overlaps va BASE_PAGE_SIZE eva BASE_PAGE_SIZE = true) :
    eva = va := by
  simp only [overlaps, Bool.and_eq_true, decide_eq_true_eq] at ho
  unfold BASE_PAGE_SIZE at hva hal ho
  omega

/-- A page table that `ptAny` rejects is empty below the bound. -/
theorem pt_none_of_ptAny_false (pt : PT) (h : ptAny pt 512 = false) :
    ∀ i, i < 512 → pt i = none := by
  intro i hi
  cases hp : pt i with
  | none => rfl
  | some v =>
      have hsome : (pt i).isSome = true := by rw [hp]; rfl
      have := (ptAny_iff pt 512).2 ⟨i, hi, hsome⟩
      rw [h] at this
      simp at this

/-- With an empty slot, nothing overlaps an aligned range at `va`. -/
theorem find_overlap_of_empty (L : ModelAddressSpace) (va sz : Nat)
    (hinv : Inv L) (hsz : sz = BASE_PAGE_SIZE ∨ sz = LARGE_PAGE_SIZE)
    (hva : va % sz = 0) (hva4 : va % BASE_PAGE_SIZE = 0)
    (hsl : SlotRel L (va / LARGE_PAGE_SIZE) PDE.empty) :
    L.find? (fun e => overlaps va sz e.va e.len) = none := by
  rw [List.find?_eq_none]
  intro e he hc
  exact hsl e he (overlaps_imp_inSlot e va sz (hinv e he) hsz hva hva4 hc)

/-- With an all-empty page table in the slot, nothing overlaps an aligned
range at `va`. -/
theorem find_overlap_of_pt_empty (L : ModelAddressSpace) (va sz : Nat)
    (pt : PT)
    (hinv : Inv L) (hsz : sz = BASE_PAGE_SIZE ∨ sz = LARGE_PAGE_SIZE)
    (hva : va % sz = 0) (hva4 : va % BASE_PAGE_SIZE = 0)
    (hsl : SlotRel L (va / LARGE_PAGE_SIZE) (PDE.table pt))
    (hempty : ∀ i, i < 512 → pt i = none) :
    L.find? (fun e => overlaps va sz e.va e.len) = none := by
  rw [List.find?_eq_none]
  intro e he hc
  obtain ⟨_, hpt0⟩ := hsl.2 e he
    (overlaps_imp_inSlot e va sz (hinv e he) hsz hva hva4 hc)
  rw [hempty (pt_idx e.va) (pt_idx_lt e.va)] at hpt0
  simp at hpt0

/-- With a table slot missing the `va` leaf, no entry overlaps the base
page at `va`. -/
theorem find_overlap_of_pt_none (L : ModelAddressSpace) (va : Nat) (pt : PT)
    (hinv : Inv L) (hva : va % BASE_PAGE_SIZE = 0)
    (hsl : SlotRel L (va / LARGE_PAGE_SIZE) (PDE.table pt))
    (hpt : pt (pt_idx va) = none) :
    L.find? (fun e => overlaps va BASE_PAGE_SIZE e.va e.len) = none := by
  rw [List.find?_eq_none]
  intro e he hc
  obtain ⟨hlen0, hpt0⟩ := hsl.2 e he
    (overlaps_imp_inSlot e va BASE_PAGE_SIZE (hinv e he) (Or.inl rfl) hva
      hva hc)
  obtain ⟨_, hal0, _⟩ := hinv e he
  rw [hlen0] at hal0
  have heva : e.va = va := by
    refine overlaps_base_eq va e.va hva hal0 ?_
    rw [hlen0] at hc
    exact hc
  rw [heva, hpt] at hpt0
  simp at hpt0

/-- One `Map` matches on both sides (up to the `AlreadyMapped` base
witness) and preserves the refinement invariants. -/
theorem step_map_match (L : ModelAddressSpace) (s : VSpace) (va : Nat)
    (f : Frame) (r : Rights) (hinv : Inv L) (hrel : Rel L s)
    (hva : va % BASE_PAGE_SIZE = 0) (hlt : va < 0x600000) :
    resultsMatch (VSpace.map_frame s va f r).1 (model_map L va f r).1 ∧
      Inv (model_map L va f r).2 ∧
      Rel (model_map L va f r).2 (VSpace.map_frame s va f r).2 := by
  have hi2 : va / LARGE_PAGE_SIZE < 3 := by
    unfold LARGE_PAGE_SIZE
    omega
  have hps : pdAt s va = pdAt s (slotBase (va / LARGE_PAGE_SIZE)) := by
    rw [pdAt_eq_slot s va hlt, pd_idx_low va hlt]
  have hsl : SlotRel L (va / LARGE_PAGE_SIZE) (pdAt s va) := by
    rw [hps]
    exact hrel _ hi2
  unfold VSpace.map_frame model_map
  by_cases hok : frame_ok va f = true
  · have hok' := hok
    simp only [frame_ok, Bool.and_eq_true, Bool.or_eq_true,
      beq_iff_eq] at hok'
    obtain ⟨⟨hsz2, hmod⟩, hbmod⟩ := hok'
    rw [if_pos hok, if_pos hok]
    by_cases hLg : f.size = LARGE_PAGE_SIZE
    · rw [hLg] at hmod
      have hbase : slotBase (va / LARGE_PAGE_SIZE) = va :=
        slotBase_of_aligned va hmod
      simp only [hLg, beq_self_eq_true]
      rw [if_pos trivial]
      cases hpde : pdAt s va with
      | large p rold =>
          rw [hpde] at hsl
          obtain ⟨e0, hf⟩ := find_exists L
            (fun e => overlaps va LARGE_PAGE_SIZE e.va e.len) _ hsl.1
            (overlaps_large_entry va LARGE_PAGE_SIZE
              (by unfold LARGE_PAGE_SIZE; omega))
          rw [hf]
          exact ⟨Or.inr ⟨va, e0.va, rfl, rfl⟩, hinv, hrel⟩
      | table pt =>
          rw [hpde] at hsl
          dsimp only
          by_cases hany : ptAny pt 512 = true
          · rw [if_pos hany]
            obtain ⟨i1, hi1, hsome⟩ := (ptAny_iff pt 512).1 hany
            cases hv : pt i1 with
            | none =>
                rw [hv] at hsome
                simp at hsome
            | some v =>
                obtain ⟨p1, r1⟩ := v
                have hm := hsl.1 i1 p1 r1 hi1 hv
                obtain ⟨e0, hf⟩ := find_exists L
                  (fun e => overlaps va LARGE_PAGE_SIZE e.va e.len) _ hm
                  (overlaps_slot_base_page va i1 hi1 hbase)
                rw [hf]
                exact ⟨Or.inr ⟨va, e0.va, rfl, rfl⟩, hinv, hrel⟩
          · rw [if_neg hany]
            have hempty := pt_none_of_ptAny_false pt (by
              cases h : ptAny pt 512
              · rfl
              · exact absurd h hany)
            rw [find_overlap_of_pt_empty L va LARGE_PAGE_SIZE pt hinv
              (Or.inr rfl) hmod hva hsl hempty]
            dsimp only
            refine ⟨Or.inl rfl, Inv_cons _ L ⟨Or.inr rfl, hmod, hlt⟩ hinv, ?_⟩
            refine Rel_update L _ s va (PDE.large f.base r) hlt hrel ?_ ?_
            · intro j hj hij
              refine mem_cons_other L _ j ?_
              intro hcontra
              have h' : va / LARGE_PAGE_SIZE = j := hcontra
              exact hij h'.symm
            · constructor
              · rw [hbase]
                exact List.mem_cons_self _ _
              · intro e he hs2
                rcases List.mem_cons.1 he with rfl | heL
                · rw [hbase]
                · exfalso
                  obtain ⟨_, hpt0⟩ := hsl.2 e heL hs2
                  rw [hempty (pt_idx e.va) (pt_idx_lt e.va)] at hpt0
                  simp at hpt0
      | empty =>
          rw [hpde] at hsl
          dsimp only
          rw [find_overlap_of_empty L va LARGE_PAGE_SIZE hinv
            (Or.inr rfl) hmod hva hsl]
          dsimp only
          refine ⟨Or.inl rfl, Inv_cons _ L ⟨Or.inr rfl, hmod, hlt⟩ hinv, ?_⟩
          refine Rel_update L _ s va (PDE.large f.base r) hlt hrel ?_ ?_
          · intro j hj hij
            refine mem_cons_other L _ j ?_
            intro hcontra
            have h' : va / LARGE_PAGE_SIZE = j := hcontra
            exact hij h'.symm
          · constructor
            · rw [hbase]
              exact List.mem_cons_self _ _
            · intro e he hs2
              rcases List.mem_cons.1 he with rfl | heL
              · rw [hbase]
              · exact absurd hs2 (hsl e heL)
    · have hBs : f.size = BASE_PAGE_SIZE := by
        rcases hsz2 with h | h
        · exact h
        · exact absurd h hLg
      rw [hBs] at hmod
      simp only [hBs]
      rw [if_neg (by decide)]
      cases hpde : pdAt s va with
      | large p rold =>
          rw [hpde] at hsl
          obtain ⟨e0, hf⟩ := find_exists L
            (fun e => overlaps va BASE_PAGE_SIZE e.va e.len) _ hsl.1
            (overlaps_large_entry va BASE_PAGE_SIZE
              (by unfold BASE_PAGE_SIZE; omega))
          rw [hf]
          exact ⟨Or.inr ⟨va, e0.va, rfl, rfl⟩, hinv, hrel⟩
      | table pt =>
          rw [hpde] at hsl
          dsimp only
          cases hpt : pt (pt_idx va) with
          | some pr =>
              obtain ⟨p1, r1⟩ := pr
              have hdec := va_decomp va hva hlt
              have hm : ModelEntry.mk va p1 BASE_PAGE_SIZE r1 ∈ L := by
                have h := hsl.1 (pt_idx va) p1 r1 hdec.2.2 hpt
                rw [← hdec.1] at h
                exact h
              obtain ⟨e0, hf⟩ := find_exists L
                (fun e => overlaps va BASE_PAGE_SIZE e.va e.len) _ hm
                (overlaps_self va BASE_PAGE_SIZE
                  (by unfold BASE_PAGE_SIZE; omega))
              rw [hf]
              exact ⟨Or.inr ⟨va, e0.va, rfl, rfl⟩, hinv, hrel⟩
          | none =>
              rw [find_overlap_of_pt_none L va pt hinv hva hsl hpt]
              dsimp only
              refine ⟨Or.inl rfl,
                Inv_cons _ L ⟨Or.inl rfl, hmod, hlt⟩ hinv, ?_⟩
              refine Rel_update L _ s va
                (PDE.table (Function.update pt (pt_idx va)
                  (some (f.base, r)))) hlt hrel ?_ ?_
              · intro j hj hij
                refine mem_cons_other L _ j ?_
                intro hcontra
                have h' : va / LARGE_PAGE_SIZE = j := hcontra
                exact hij h'.symm
              · obtain ⟨hfwd, hbwd⟩ := hsl
                have hdec := va_decomp va hva hlt
                constructor
                · intro i1 p' r' hi hpt'
                  by_cases h1 : i1 = pt_idx va
                  · subst h1
                    rw [Function.update_same] at hpt'
                    simp only [Option.some.injEq, Prod.mk.injEq] at hpt'
                    rw [← hdec.1, ← hpt'.1, ← hpt'.2]
                    exact List.mem_cons_self _ _
                  · rw [Function.update_noteq h1] at hpt'
                    exact List.mem_cons_of_mem _ (hfwd i1 p' r' hi hpt')
                · intro e he hs2
                  rcases List.mem_cons.1 he with rfl | heL
                  · dsimp only
                    refine ⟨rfl, ?_⟩
                    rw [Function.update_same]
                  · obtain ⟨hlen1, hpt1⟩ := hbwd e heL hs2
                    refine ⟨hlen1, ?_⟩
                    have hne2 : pt_idx e.va ≠ pt_idx va := by
                      intro hcontra
                      obtain ⟨_, hal1, _⟩ := hinv e heL
                      rw [hlen1] at hal1
                      have hh := pt_idx_inj e.va va hal1 hva hs2 hcontra
                      rw [hh, hpt] at hpt1
                      simp at hpt1
                    rw [Function.update_noteq hne2]
                    exact hpt1
      | empty =>
          rw [hpde] at hsl
          dsimp only
          rw [find_overlap_of_empty L va BASE_PAGE_SIZE hinv
            (Or.inl rfl) hmod hva hsl]
          dsimp only
          refine ⟨Or.inl rfl, Inv_cons _ L ⟨Or.inl rfl, hmod, hlt⟩ hinv, ?_⟩
          refine Rel_update L _ s va
            (PDE.table (Function.update (fun _ => none) (pt_idx va)
              (some (f.base, r)))) hlt hrel ?_ ?_
          · intro j hj hij
            refine mem_cons_other L _ j ?_
            intro hcontra
            have h' : va / LARGE_PAGE_SIZE = j := hcontra
            exact hij h'.symm
          · have hdec := va_decomp va hva hlt
            constructor
            · intro i1 p' r' hi hpt'
              by_cases h1 : i1 = pt_idx va
              · subst h1
                rw [Function.update_same] at hpt'
                simp only [Option.some.injEq, Prod.mk.injEq] at hpt'
                rw [← hdec.1, ← hpt'.1, ← hpt'.2]
                exact List.mem_cons_self _ _
              · rw [Function.update_noteq h1] at hpt'
                simp at hpt'
            · intro e he hs2
              rcases List.mem_cons.1 he with rfl | heL
              · dsimp only
                refine ⟨rfl, ?_⟩
                rw [Function.update_same]
              · exact absurd hs2 (hsl e heL)
  · rw [if_neg hok, if_neg hok]
    exact ⟨Or.inl rfl, hinv, hrel⟩

/-- One step of any in-domain, unmap-safe action matches on both sides and
preserves the refinement invariants. -/
theorem step_match (L : ModelAddressSpace) (s : VSpace) (a : TestAction)
    (hinv : Inv L) (hrel : Rel L s) (hok : actionOk a)
    (hsafe : unmapSafe L a) :
    resultsMatch (stepReal s a).1 (stepModel L a).1 ∧
      Inv (stepModel L a).2 ∧ Rel (stepModel L a).2 (stepReal s a).2 := by
  cases a with
  | map va f r =>
      obtain ⟨hva, hlt, _⟩ := hok
      exact step_map_match L s va f r hinv hrel hva hlt
  | adjust va r =>
      obtain ⟨hva, hlt⟩ := hok
      have h := step_adjust_match L s va r hinv hrel hva hlt
      exact ⟨Or.inl h.1, h.2⟩
  | resolveAct va =>
      obtain ⟨hva, hlt⟩ := hok
      have h := step_resolve_match L s va hinv hrel hva hlt
      refine ⟨Or.inl h.1, ?_, ?_⟩
      · show Inv (model_resolve L va).2
        rw [h.2.2]
        exact hinv
      · show Rel (model_resolve L va).2 (VSpace.resolve s va).2
        rw [h.2.1, h.2.2]
        exact hrel
  | unmap va =>
      obtain ⟨hva, hlt⟩ := hok
      have h := step_unmap_match L s va hinv hrel hsafe hva hlt
      exact ⟨Or.inl h.1, h.2⟩

/-- Every step of a safe action sequence run from related states produces
matching results. -/
theorem runPair_match (acts : List TestAction) :
    ∀ (s : VSpace) (L : ModelAddressSpace), Inv L → Rel L s →
      SafeActions L acts →
      ∀ pr ∈ runPair acts s L, resultsMatch pr.1 pr.2 := by
  induction acts with
  | nil =>
      intro s L _ _ _ pr hpr
      simp [runPair] at hpr
  | cons a rest ih =>
      intro s L hinv hrel hsafe pr hpr
      obtain ⟨hok, hunm, hrest⟩ := hsafe
      have hstep := step_match L s a hinv hrel hok hunm
      simp only [runPair] at hpr
      rcases List.mem_cons.1 hpr with rfl | hpr'
      · exact hstep.1
      · exact ih (stepReal s a).2 (stepModel L a).2 hstep.2.1 hstep.2.2
          hrest pr hpr'

/-- The empty model satisfies the invariant. -/
theorem Inv_nil : Inv ([] : ModelAddressSpace) := by
  intro e he
  cases he

/-- A fresh address space refines the empty model. -/
theorem Rel_nil : Rel ([] : ModelAddressSpace) VSpace.new := by
  intro i2 hi2
  show SlotRel [] i2 (pdAt VSpace.new (slotBase i2))
  have h : pdAt VSpace.new (slotBase i2) = PDE.empty := rfl
  rw [h]
  intro e he
  cases he

end Vas

/-- C4 counterexample: with exactly page 0 mapped (a page-granular resolve
oracle), `user_virt_addr_valid(pid, 0, 4096)` returns Ok although the
claimed inclusive range `[0, 4096]` reaches address `4096 = base + size`,
whose base page resolve refuses: the walk only probes up to
`base + size - 1`. -/
theorem user_virt_addr_valid_boundary_counterexample :
    Syscall.user_virt_addr_valid Syscall.crOracle 0 4096 = Except.ok (4095, 0) ∧
    Syscall.errOf (Syscall.crOracle (0 + 4096)) = some Syscall.KError.BadAddress ∧
    Syscall.PageGranular Syscall.crOracle := by
  refine ⟨?_, by decide, ?_⟩
  · have h1 : Syscall.crOracle 0 = Except.ok (0, 0) := by
      unfold Syscall.crOracle
      rw [if_pos (by norm_num [BASE_PAGE_SIZE])]
    have h2 : ((4096 : Nat) + (U64 - 1)) % U64 = 4095 := by norm_num [U64]
    have h3 : Syscall.crOracle 4095 = Except.ok (4095, 0) := by
      unfold Syscall.crOracle
      rw [if_pos (by norm_num [BASE_PAGE_SIZE])]
    unfold Syscall.user_virt_addr_valid
    rw [if_pos (by norm_num [U64, KERNEL_BASE])]
    have hm : ((0 : Nat) + 4096) % U64 = 4096 := by norm_num [U64]
    rw [hm, Syscall.uvav_loop_eq, if_pos (by omega),
      if_pos (by norm_num [BASE_PAGE_SIZE])]
    simp only [h1]
    rw [h2, h3]
  · intro a b h
    unfold Syscall.crOracle Syscall.errOf
    unfold BASE_PAGE_SIZE at h
    by_cases ha : a < BASE_PAGE_SIZE
    · have hb : b < BASE_PAGE_SIZE := by
        unfold BASE_PAGE_SIZE at *
        have ha0 : a / 4096 = 0 := Nat.div_eq_of_lt ha
        have hb0 : b / 4096 = 0 := by omega
        exact (Nat.div_eq_zero_iff (by norm_num)).1 hb0
      rw [if_pos ha, if_pos hb]
    · have hb : ¬ b < BASE_PAGE_SIZE := by
        unfold BASE_PAGE_SIZE at *
        intro hcon
        have hb0 : b / 4096 = 0 := Nat.div_eq_of_lt hcon
        have ha0 : a / 4096 = 0 := by omega
        exact ha ((Nat.div_eq_zero_iff (by norm_num)).1 ha0)
      rw [if_neg ha, if_neg hb]

/-- C4 (amended): `user_virt_addr_valid(pid, base, size)` returns
`BadAddress` whenever `base + size` (without u64 overflow) reaches
`KERNEL_BASE`; when `base + size` lies strictly below `KERNEL_BASE` it
returns Ok iff resolve succeeds on every base page meeting the half-open
range `[base, base + size)` (just the page of `base` when `size = 0`) and
on the page of the wrapped last byte `base + size - 1` (which is `base - 1`
when `size = 0`); the page containing `base + size` itself is never probed.
Any error is propagated from resolve at one of these probed addresses. -/
theorem user_virt_addr_valid_checks
    (resolve : Nat → Except Syscall.KError (Nat × Nat))
    (hgr : Syscall.PageGranular resolve) (base size : Nat) :
    (KERNEL_BASE ≤ base + size → base + size < U64 →
      Syscall.user_virt_addr_valid resolve base size =
        Except.error Syscall.KError.BadAddress) ∧
    (base + size < KERNEL_BASE →
      (((Syscall.user_virt_addr_valid resolve base size).isOk = true) ↔
        ∀ a, Syscall.Probed base size a → (resolve a).isOk = true) ∧
      (∀ e, Syscall.user_virt_addr_valid resolve base size = Except.error e →
        ∃ a, Syscall.Probed base size a ∧ Syscall.errOf (resolve a) = some e)) := by
  constructor
  · intro h1 h2
    unfold Syscall.user_virt_addr_valid
    rw [Nat.mod_eq_of_lt h2, if_neg (by omega)]
  · intro hlt
    have hKU : KERNEL_BASE < U64 := by norm_num [KERNEL_BASE, U64]
    have h2 : base + size < U64 := by omega
    have hspec := Syscall.uvav_loop_spec resolve hgr size (base + size) h2
      (base + size - base) base rfl (Nat.le_add_right base size)
    unfold Syscall.user_virt_addr_valid
    rw [Nat.mod_eq_of_lt h2, if_pos hlt]
    unfold Syscall.Probed
    exact hspec

/-- Witness for C4 (amended): a range starting at `KERNEL_BASE` is refused
with `BadAddress` even under an oracle that resolves everything. -/
theorem user_virt_addr_valid_checks_witness :
    Syscall.user_virt_addr_valid (fun _ => Except.ok (0, 0)) KERNEL_BASE 0 =
      Except.error Syscall.KError.BadAddress :=
  (user_virt_addr_valid_checks (fun _ => Except.ok (0, 0))
    (fun _ _ _ => rfl) KERNEL_BASE 0).1 (by omega)
    (by norm_num [KERNEL_BASE, U64])

/-- C5: starting from a fresh buddy allocator over a power-of-two region,
any accepted layout can be allocated; deallocating the returned frame with
the same layout restores the allocator exactly (in particular
`allocated() = 0`), and a subsequent identical allocation returns the very
same frame (same base address) and state. -/
theorem buddy_allocate_deallocate_roundtrip (base m K aff size align s : Nat)
    (a0 : Buddy.BuddyFrameAllocator)
    (hb : BASE_PAGE_SIZE < base) (hba : base % BASE_PAGE_SIZE = 0)
    (hm : 3 ≤ m) (hK : K ≤ Buddy.FREE_LISTS_LEN - 1)
    (hinit : Buddy.new_test_instance ⟨base, 2 ^ (m + K), aff⟩ (2 ^ m) = some a0)
    (hs : Buddy.allocation_size a0 size align = some s) :
    ∃ f a1 a2, Buddy.allocate_frame a0 size align = Except.ok (f, a1) ∧
      f.base = base ∧
      Buddy.deallocate_frame a1 f size align = some a2 ∧
      a2.allocated_bytes = 0 ∧ a2 = a0 ∧
      Buddy.allocate_frame a2 size align = Except.ok (f, a1) := by
  have hK26 : K ≤ 26 := by unfold Buddy.FREE_LISTS_LEN at hK; omega
  rw [Buddy.new_test_instance_pow base m K aff hb hba hm hK] at hinit
  have ha0 : _ = a0 := Option.some.inj hinit
  subst ha0
  obtain ⟨k, hkK, hsk, hlto⟩ :=
    Buddy.allocation_size_inv _ m K size align s rfl rfl rfl hs
  have hfind := Buddy.find_free_block_single base K (Buddy.FREE_LISTS_LEN - k) k
    hkK (by unfold Buddy.FREE_LISTS_LEN; omega)
  have hpop : Function.update (Function.update (fun _ => ([] : List Nat)) K [base]) K [] =
      (fun _ => ([] : List Nat)) := by
    rw [Function.update_idem]
    exact Function.update_eq_self K (fun _ => [])
  have hsplit2 : ∀ fl2pre : Nat → List Nat, fl2pre = (fun _ => []) →
      (if k < K then Buddy.split_free_block m base K k fl2pre else fl2pre) =
        Buddy.splitLists m base k K := by
    intro fl2pre hfl
    subst hfl
    by_cases hkKlt : k < K
    · rw [if_pos hkKlt, Buddy.split_free_block_eq]
      funext j
      unfold Buddy.splitLists
      by_cases hj : k ≤ j ∧ j < K
      · simp [hj]
      · simp [hj]
    · have hkEq : k = K := by omega
      subst hkEq
      rw [if_neg hkKlt]
      funext j
      unfold Buddy.splitLists
      rw [if_neg (by omega)]
  have halloc : Buddy.allocate_frame
      (Buddy.BuddyFrameAllocator.mk ⟨base, 2 ^ (m + K), aff⟩ 0 0
        (Function.update (fun _ => []) K [base])
        (if base % LARGE_PAGE_SIZE = 0 then LARGE_PAGE_SIZE else BASE_PAGE_SIZE)
        (2 ^ m) m) size align =
      Except.ok (Frame.mk base (2 ^ (m + k)) aff,
        Buddy.BuddyFrameAllocator.mk ⟨base, 2 ^ (m + K), aff⟩ (0 + 2 ^ (m + k))
          (0 + (2 ^ (m + k) - size)) (Buddy.splitLists m base k K)
          (if base % LARGE_PAGE_SIZE = 0 then LARGE_PAGE_SIZE else BASE_PAGE_SIZE)
          (2 ^ m) m) := by
    unfold Buddy.allocate_frame
    simp only [hlto]
    simp only [hfind]
    rw [hpop]
    rw [hsplit2 _ rfl]
    rfl
  refine ⟨Frame.mk base (2 ^ (m + k)) aff, _, _, halloc, rfl, ?_, rfl, rfl, halloc⟩
  unfold Buddy.deallocate_frame
  have hlto1 : Buddy.layout_to_order
      (Buddy.BuddyFrameAllocator.mk ⟨base, 2 ^ (m + K), aff⟩ (0 + 2 ^ (m + k))
        (0 + (2 ^ (m + k) - size)) (Buddy.splitLists m base k K)
        (if base % LARGE_PAGE_SIZE = 0 then LARGE_PAGE_SIZE else BASE_PAGE_SIZE)
        (2 ^ m) m) size align = some k := hlto
  simp only [hlto1]
  have hmerge := Buddy.deallocate_loop_merges
    (Buddy.BuddyFrameAllocator.mk ⟨base, 2 ^ (m + K), aff⟩ (0 + 2 ^ (m + k))
      (0 + (2 ^ (m + k) - size)) (Buddy.splitLists m base k K)
      (if base % LARGE_PAGE_SIZE = 0 then LARGE_PAGE_SIZE else BASE_PAGE_SIZE)
      (2 ^ m) m) base m K aff rfl rfl (K - k) k (Buddy.FREE_LISTS_LEN - k)
    (by omega) (by unfold Buddy.FREE_LISTS_LEN; omega)
  simp only [Option.some.injEq, Buddy.BuddyFrameAllocator.mk.injEq]
  refine ⟨?_, ?_, ?_, ?_, trivial, trivial, trivial⟩
  · simp
  · simp
  · simp
  · exact hmerge

/-- Witness for C5: the `test_alloc_simple` configuration (a 256-byte region
at base 8192 with 16-byte minimum blocks) round-trips an `(8, 8)` layout:
the frame comes back at base 8192 and the allocator returns to its initial
state. -/
theorem buddy_allocate_deallocate_roundtrip_witness :
    ∃ f a1 a2,
      Buddy.allocate_frame (Buddy.BuddyFrameAllocator.mk ⟨8192, 2 ^ (4 + 4), 8⟩ 0 0
          (Function.update (fun _ => []) 4 [8192])
          (if 8192 % LARGE_PAGE_SIZE = 0 then LARGE_PAGE_SIZE else BASE_PAGE_SIZE)
          (2 ^ 4) 4) 8 8 = Except.ok (f, a1) ∧
      f.base = 8192 ∧
      Buddy.deallocate_frame a1 f 8 8 = some a2 ∧
      a2.allocated_bytes = 0 ∧
      a2 = Buddy.BuddyFrameAllocator.mk ⟨8192, 2 ^ (4 + 4), 8⟩ 0 0
          (Function.update (fun _ => []) 4 [8192])
          (if 8192 % LARGE_PAGE_SIZE = 0 then LARGE_PAGE_SIZE else BASE_PAGE_SIZE)
          (2 ^ 4) 4 ∧
      Buddy.allocate_frame a2 8 8 = Except.ok (f, a1) :=
  buddy_allocate_deallocate_roundtrip 8192 4 4 8 8 8 16 _
    (by decide) (by decide) (by decide) (by decide)
    (Buddy.new_test_instance_pow 8192 4 4 8 (by decide) (by decide) (by decide)
      (by decide))
    (by decide)

/-- C6 counterexample: adding a fresh region whose size is already a power
of two (8192) does not keep the whole size; `add_memory` computes
`next_power_of_two(size) >> 1` and manages only 4096 bytes. -/
theorem add_memory_drops_half_of_power_of_two_region :
    (Buddy.add_memory Buddy.new ⟨LARGE_PAGE_SIZE, 8192, 0⟩).map
        (fun r => (r.1, r.2.region.size)) = some (true, 4096) ∧
    (4096 : Nat) ≠ 8192 := by
  constructor
  · rfl
  · decide

/-- C6 (amended): on a fresh allocator, `add_memory` succeeds for any frame
of size above one base page and sets the managed region size to
`next_power_of_two(size) / 2`: for a size that is not a power of two this
is the largest power of two below it, but for a power-of-two size only half
the frame is kept; the remainder is dropped either way. -/
theorem add_memory_keeps_half_next_power_of_two (b rs aff : Nat)
    (hrs : BASE_PAGE_SIZE < rs) :
    ((Buddy.add_memory Buddy.new ⟨b, rs, aff⟩).map
        (fun r => (r.1, r.2.region.size)) =
      some (true, Buddy.nextPowerOfTwo rs / 2)) ∧
    (rs ≠ 2 ^ Buddy.log2 rs →
      (Buddy.add_memory Buddy.new ⟨b, rs, aff⟩).map
          (fun r => (r.1, r.2.region.size)) = some (true, 2 ^ Buddy.log2 rs)) ∧
    (rs = 2 ^ Buddy.log2 rs →
      (Buddy.add_memory Buddy.new ⟨b, rs, aff⟩).map
          (fun r => (r.1, r.2.region.size)) = some (true, rs / 2)) := by
  have hclog : 12 < Nat.clog 2 rs := by
    rw [← Nat.pow_lt_iff_lt_clog (by norm_num)]
    simpa [BASE_PAGE_SIZE] using hrs
  have hsize : Buddy.nextPowerOfTwo rs / 2 = 2 ^ (Nat.clog 2 rs - 1) := by
    rw [Buddy.nextPowerOfTwo_eq]
    rcases Nat.exists_eq_add_of_lt hclog with ⟨d, hd⟩
    rw [hd, show 12 + d + 1 - 1 = 12 + d by omega, pow_succ]
    simp
  have h4096 : (4096 : Nat) ≤ Buddy.nextPowerOfTwo rs / 2 := by
    rw [hsize, show (4096 : Nat) = 2 ^ 12 by norm_num]
    exact Nat.pow_le_pow_right (by norm_num) (by omega)
  have hmain : (Buddy.add_memory Buddy.new ⟨b, rs, aff⟩).map
      (fun r => (r.1, r.2.region.size)) =
      some (true, Buddy.nextPowerOfTwo rs / 2) := by
    have hord : ∀ al : Buddy.BuddyFrameAllocator,
        al.region.size = Buddy.nextPowerOfTwo rs / 2 →
        al.min_heap_align = BASE_PAGE_SIZE →
        al.min_block_size = BASE_PAGE_SIZE →
        al.min_block_size_log2 = 12 →
        Buddy.layout_to_order al (Buddy.nextPowerOfTwo rs / 2) 1 =
          some (Nat.clog 2 rs - 1 - 12) := by
      intro al h1 h2 h3 h4
      unfold Buddy.layout_to_order Buddy.allocation_size
      rw [if_neg (by rw [h2]; unfold BASE_PAGE_SIZE; omega)]
      rw [h3, h1]
      have hmax : max (max (Buddy.nextPowerOfTwo rs / 2) 1) BASE_PAGE_SIZE =
          Buddy.nextPowerOfTwo rs / 2 := by
        rw [max_eq_left (by omega : 1 ≤ Buddy.nextPowerOfTwo rs / 2)]
        exact max_eq_left h4096
      rw [hmax, hsize, Buddy.nextPowerOfTwo_two_pow]
      rw [if_pos le_rfl]
      simp [Buddy.log2_two_pow, h4]
    unfold Buddy.add_memory
    rw [if_pos (show Buddy.new.region.base = 0 from rfl)]
    rw [hord _ rfl rfl rfl rfl]
    rfl
  refine ⟨hmain, ?_, ?_⟩
  · intro hnp
    rw [hmain]
    have hrs0 : rs ≠ 0 := by omega
    rw [Buddy.log2_eq] at hnp
    have hlog : Nat.log 2 rs < Nat.clog 2 rs := by
      rw [← Nat.pow_lt_iff_lt_clog (by norm_num)]
      rcases Nat.lt_or_ge (2 ^ Nat.log 2 rs) rs with h | h
      · exact h
      · exact absurd (le_antisymm h (Nat.pow_log_le_self 2 hrs0)) (fun he => hnp he)
    have hclog2 : Nat.clog 2 rs ≤ Nat.log 2 rs + 1 := by
      rw [← Nat.le_pow_iff_clog_le (by norm_num)]
      exact le_of_lt (Nat.lt_pow_succ_log_self (by norm_num) rs)
    have heq : Nat.clog 2 rs - 1 = Nat.log 2 rs := by omega
    rw [hsize, heq, Buddy.log2_eq]
  · intro hp
    rw [hmain]
    have : Buddy.nextPowerOfTwo rs = rs := by
      conv_lhs => rw [hp]
      rw [Buddy.nextPowerOfTwo_two_pow]
      exact hp.symm
    rw [this]

/-- Witness for C6 (amended): a fresh 12288-byte region is rounded down to
8192 managed bytes (the largest power of two below 12288). -/
theorem add_memory_keeps_half_next_power_of_two_witness :
    (Buddy.add_memory Buddy.new ⟨2097152, 12288, 3⟩).map
        (fun r => (r.1, r.2.region.size)) = some (true, 8192) := by
  have h := (add_memory_keeps_half_next_power_of_two 2097152 12288 3
    (by decide)).2.1 (by decide)
  rw [h]
  decide

/-- C7 counterexample: on the buddy instance of the repository's own
`test_order` unit test (a 256-byte region with `min_block_size = 16`),
`layout_to_order` of a layout of the whole region size is 4, not
`free_lists.len() - 1 = 26`. -/
theorem layout_to_order_region_counterexample :
    (Buddy.new_test_instance ⟨8192, 256, 0⟩ 16).map
        (fun a => Buddy.layout_to_order a 256 1) = some (some 4) ∧
    some (some (4 : Nat)) ≠ some (some (Buddy.FREE_LISTS_LEN - 1)) := by
  constructor
  · decide
  · decide

/-- C7 (amended): for a buddy allocator whose minimum block size is a power
of two `2 ^ m` (with matching `min_block_size_log2`) and whose region size
is `2 ^ (m + K)`, `layout_to_order` of the zero layout is 0 and
`layout_to_order` of the whole region size is `K`, i.e.
`log2(region_size) - log2(min_block_size)`; it equals
`free_lists.len() - 1 = 26` only when `region_size = min_block_size * 2^26`. -/
theorem layout_to_order_bounds (a : Buddy.BuddyFrameAllocator) (m K : Nat)
    (hmb : a.min_block_size = 2 ^ m) (hlog : a.min_block_size_log2 = m)
    (hrs : a.region.size = 2 ^ (m + K)) (hha : 1 ≤ a.min_heap_align) :
    Buddy.layout_to_order a 0 1 = some 0 ∧
    Buddy.layout_to_order a a.region.size 1 = some K := by
  have hmK : (2 : Nat) ^ m ≤ 2 ^ (m + K) :=
    Nat.pow_le_pow_right (by norm_num) (Nat.le_add_right m K)
  constructor
  · unfold Buddy.layout_to_order Buddy.allocation_size
    rw [if_neg (by omega)]
    rw [hmb, hrs]
    have hmax : max (max 0 1) (2 ^ m) = 2 ^ m := by
      rw [show max 0 1 = 1 from rfl]
      exact max_eq_right Nat.one_le_two_pow
    rw [hmax, Buddy.nextPowerOfTwo_two_pow, if_pos hmK]
    simp [Buddy.log2_two_pow, hlog]
  · unfold Buddy.layout_to_order Buddy.allocation_size
    rw [if_neg (by omega)]
    rw [hmb, hrs]
    have hmax : max (max (2 ^ (m + K)) 1) (2 ^ m) = 2 ^ (m + K) := by
      rw [max_eq_left Nat.one_le_two_pow]
      exact max_eq_left hmK
    rw [hmax, Buddy.nextPowerOfTwo_two_pow, if_pos le_rfl]
    simp [Buddy.log2_two_pow, hlog]

/-- Witness for C7 (amended): on the `test_order` instance (256-byte region,
16-byte minimum block), the zero layout has order 0 and the whole-region
layout has order `8 - 4 = 4`. -/
theorem layout_to_order_bounds_witness :
    Buddy.layout_to_order ((Buddy.new_test_instance ⟨8192, 256, 0⟩ 16).getD Buddy.new) 0 1 =
        some 0 ∧
    Buddy.layout_to_order ((Buddy.new_test_instance ⟨8192, 256, 0⟩ 16).getD Buddy.new)
        ((Buddy.new_test_instance ⟨8192, 256, 0⟩ 16).getD Buddy.new).region.size 1 =
      some 4 :=
  layout_to_order_bounds ((Buddy.new_test_instance ⟨8192, 256, 0⟩ 16).getD Buddy.new)
    4 4 (by decide) (by decide) (by decide) (by decide)

/-- C8: a `TCacheSp` release panics (fails its assertions) exactly when the
frame's size differs from the page class, its base is not aligned to that
size, or its affinity differs from the cache's node; a well-formed frame
never panics (it is pushed, or rejected with `CacheFull` when the stack is
full, but no assertion fires). -/
theorem tcache_release_asserts_well_formed (t : Mem.TCacheSp) (f : Frame) :
    (Mem.release_base_page t f = none ↔
      ¬(f.size = BASE_PAGE_SIZE ∧ f.base % BASE_PAGE_SIZE = 0 ∧
        f.affinity = t.node)) ∧
    (Mem.release_large_page t f = none ↔
      ¬(f.size = LARGE_PAGE_SIZE ∧ f.base % LARGE_PAGE_SIZE = 0 ∧
        f.affinity = t.node)) := by
  constructor
  · unfold Mem.release_base_page
    split_ifs <;> simp_all
  · unfold Mem.release_large_page
    split_ifs <;> simp_all

/-- C9: `MemFS::delete` is atomic on error. An absent path fails with
`InvalidFile` and leaves the filesystem untouched; a path whose `Arc` has
other live references fails with `PermissionError`, leaving the path mapped
to the same mnode and the mnode store untouched; a path with no other
references returns `Ok(true)` and removes exactly the path entry and its
mnode. -/
theorem memfs_delete_atomic_on_error {Path : Type} [DecidableEq Path]
    (fs : Fs.MemFS Path) (path : Path) :
    (fs.files path = none →
      Fs.delete fs path = (Except.error Fs.FileSystemError.InvalidFile, fs)) ∧
    (∀ arc, fs.files path = some arc → arc.extraRefs ≠ 0 →
      (Fs.delete fs path).1 = Except.error Fs.FileSystemError.PermissionError ∧
      (Fs.delete fs path).2.files = fs.files ∧
      (Fs.delete fs path).2.mnodes = fs.mnodes) ∧
    (∀ arc, fs.files path = some arc → arc.extraRefs = 0 →
      (Fs.delete fs path).1 = Except.ok true ∧
      (Fs.delete fs path).2.files path = none ∧
      (Fs.delete fs path).2.mnodes arc.mnode = false ∧
      (∀ q, q ≠ path → (Fs.delete fs path).2.files q = fs.files q) ∧
      (∀ n, n ≠ arc.mnode → (Fs.delete fs path).2.mnodes n = fs.mnodes n)) := by
  refine ⟨?_, ?_, ?_⟩
  · intro h
    simp [Fs.delete, h]
  · intro arc harc hrefs
    have hcount : ¬(1 + arc.extraRefs = 1) := by omega
    refine ⟨?_, ?_, ?_⟩
    · simp [Fs.delete, harc, hcount]
    · simp only [Fs.delete, harc, if_neg hcount]
      funext q
      by_cases hq : q = path
      · subst hq; simp [Function.update, harc]
      · simp [Function.update, hq]
    · simp [Fs.delete, harc, hcount]
  · intro arc harc hrefs
    have hcount : 1 + arc.extraRefs = 1 := by omega
    refine ⟨?_, ?_, ?_, ?_, ?_⟩
    · simp [Fs.delete, harc, hcount]
    · simp [Fs.delete, harc, hcount, Function.update]
    · simp [Fs.delete, harc, hcount, Function.update]
    · intro q hq
      simp [Fs.delete, harc, hcount, Function.update, hq]
    · intro n hn
      simp [Fs.delete, harc, hcount, Function.update, hn]

/-- Witness for C9: deleting the sole reference to a file removes the path
and its mnode and reports `Ok(true)`. -/
theorem memfs_delete_atomic_on_error_witness :
    (Fs.delete
      (Fs.MemFS.mk (fun p : Nat => if p = 0 then some (Fs.ArcMnode.mk 5 0) else none)
        (fun n => n = 5)) 0).1 = Except.ok true :=
  ((memfs_delete_atomic_on_error
      (Fs.MemFS.mk (fun p : Nat => if p = 0 then some (Fs.ArcMnode.mk 5 0) else none)
        (fun n => n = 5)) 0).2.2 (Fs.ArcMnode.mk 5 0) (by simp) rfl).1

/-- C1 counterexample: within the claimed domain (page-aligned vaddrs
below 6 MiB, frames of 4 KiB or 2 MiB), the sequence `Map(0, 2 MiB
frame)`, `Unmap(0x1000)` makes the two sides disagree at the second step:
the real implementation removes the large leaf containing `0x1000` and
returns its flush handle, while the model's exact-key lookup reports
`NotMapped` — exactly the two unmap semantics §4.2 itself describes. -/
theorem vspace_model_unmap_divergence :
    Vas.actionOk (Vas.TestAction.map 0 ⟨0x200000, LARGE_PAGE_SIZE, 0⟩
      Vas.Rights.readWriteUser) ∧
    Vas.actionOk (Vas.TestAction.unmap 0x1000) ∧
    Vas.runPair
      [Vas.TestAction.map 0 ⟨0x200000, LARGE_PAGE_SIZE, 0⟩
        Vas.Rights.readWriteUser,
       Vas.TestAction.unmap 0x1000] Vas.VSpace.new [] =
      [(Vas.OpResult.mapOk, Vas.OpResult.mapOk),
       (Vas.OpResult.unmapOk 0 0x200000 LARGE_PAGE_SIZE,
        Vas.OpResult.err Vas.AddressSpaceError.NotMapped)] ∧
    ¬ Vas.resultsMatch (Vas.OpResult.unmapOk 0 0x200000 LARGE_PAGE_SIZE)
        (Vas.OpResult.err Vas.AddressSpaceError.NotMapped) := by
  refine ⟨⟨rfl, by omega, Or.inr rfl⟩, ⟨rfl, by omega⟩, rfl, ?_⟩
  rintro (h | ⟨b1, b2, h1, h2⟩)
  · simp at h
  · simp at h1

/-- C1 (corrected): the spec's unqualified model-equivalence claim fails
when an `Unmap` targets the strict inside of a large mapping (see the
counterexample). For every in-domain sequence whose unmaps only ever
target the base of a mapping or an unmapped address, the claim holds:
starting from a fresh `VSpace` and the empty model, every step returns
the same result on both sides, except that both sides may report
`AlreadyMapped` with different base witnesses. -/
theorem vspace_model_equivalence_safe (acts : List Vas.TestAction)
    (hsafe : Vas.SafeActions [] acts) :
    ∀ pr ∈ Vas.runPair acts Vas.VSpace.new [], Vas.resultsMatch pr.1 pr.2 :=
  Vas.runPair_match acts Vas.VSpace.new [] Vas.Inv_nil Vas.Rel_nil hsafe

/-- Witness for C1: the safe sequence `Map(0, 2 MiB frame)`, `Unmap(0)`
satisfies the safety hypothesis, and the theorem yields a match for its
unmap step. -/
theorem vspace_model_equivalence_safe_witness :
    Vas.SafeActions []
      [Vas.TestAction.map 0 ⟨0x200000, LARGE_PAGE_SIZE, 0⟩
        Vas.Rights.readWriteUser, Vas.TestAction.unmap 0] ∧
    Vas.resultsMatch (Vas.OpResult.unmapOk 0 0x200000 LARGE_PAGE_SIZE)
      (Vas.OpResult.unmapOk 0 0x200000 LARGE_PAGE_SIZE) := by
  have hsafe : Vas.SafeActions []
      [Vas.TestAction.map 0 ⟨0x200000, LARGE_PAGE_SIZE, 0⟩
        Vas.Rights.readWriteUser, Vas.TestAction.unmap 0] := by
    refine ⟨⟨rfl, by omega, Or.inr rfl⟩, trivial, ⟨rfl, by omega⟩, ?_, trivial⟩
    intro e he hc
    have h2 : (Vas.stepModel []
        (Vas.TestAction.map 0 ⟨0x200000, LARGE_PAGE_SIZE, 0⟩
          Vas.Rights.readWriteUser)).2 =
        [Vas.ModelEntry.mk 0 0x200000 LARGE_PAGE_SIZE
          Vas.Rights.readWriteUser] := rfl
    rw [h2] at he
    rcases List.mem_cons.1 he with rfl | he'
    · rfl
    · cases he'
  refine ⟨hsafe, ?_⟩
  exact vspace_model_equivalence_safe _ hsafe
    (Vas.OpResult.unmapOk 0 0x200000 LARGE_PAGE_SIZE,
     Vas.OpResult.unmapOk 0 0x200000 LARGE_PAGE_SIZE) (by decide)

end Nrk
